import Mathlib

/-!
Verification of the Knowledge Graph Engine (`src-tauri/src/graph.rs`).

The Rust code is shallowly embedded:

* `HashMap<K, V>` is embedded as an association list `List (K × V)` where
  `mapInsert` conses the new binding in front and `mapLookup` returns the
  most recent binding, giving the same last-writer-wins semantics as
  `HashMap::insert`.  Iteration over a `HashMap` (`.iter()`) is embedded by
  `mapEntries`, which visits every live key exactly once (the hash map's
  arbitrary iteration order is fixed to first-insertion order; none of the
  verified properties depend on that order).
* A petgraph `DiGraph<String, ()>` is embedded as `DiGraphM`: the weight
  list `nodes` (node index `i` carries weight `nodes[i]`, matching
  petgraph's sequential index allocation in `add_node`) and the edge list
  `edges` of `(source, target)` node-index pairs in insertion order.
* `f32` arithmetic is embedded as exact rational (`ℚ`) arithmetic; the
  algebraic structure of the PageRank computation is unchanged.
* petgraph's `kosaraju_scc` is embedded by its documented contract: it
  returns the strongly connected components of the directed graph, here
  computed as the equivalence classes of mutual reachability (`sccList`),
  which is proved below to coincide with reflexive-transitive reachability
  along the edge relation.
-/

/-- Input record (`CardListItem` in `models.rs`): the fields consumed by the
graph engine.  `card_type` is the string form produced by
`card.card_type.as_str()`. -/
structure CardListItem where
  id : String
  title : String
  aliases : List String
  card_type : String
  links : List String
deriving DecidableEq

/-- Cached per-node metadata (`CardMeta` in `graph.rs`). -/
structure CardMeta where
  title : String
  card_type : String
  links : List String
  aliases : List String
deriving DecidableEq

/-- `BacklinkInfo` output record. -/
structure BacklinkInfo where
  id : String
  title : String
  card_type : String
  context : Option String
deriving DecidableEq

/-- `CardImportance` output record (scores embedded as `ℚ`). -/
structure CardImportance where
  id : String
  title : String
  score : ℚ
  inbound_links : Nat
  outbound_links : Nat
deriving DecidableEq

/-- `KnowledgeCluster` output record. -/
structure KnowledgeCluster where
  id : Nat
  size : Nat
  nodes : List String
  center_node : Option String
deriving DecidableEq

/-- Insert into an embedded `HashMap`: the new binding shadows any older
binding for the same key (last writer wins). -/
def mapInsert {β : Type} (m : List (String × β)) (k : String) (v : β) :
    List (String × β) :=
  (k, v) :: m

/-- Lookup in an embedded `HashMap`: the most recent binding for the key. -/
def mapLookup {β : Type} (m : List (String × β)) (k : String) : Option β :=
  (m.find? (fun p => p.1 == k)).map (·.2)

/-- `HashMap::contains_key`. -/
def mapContains {β : Type} (m : List (String × β)) (k : String) : Bool :=
  (mapLookup m k).isSome

/-- The live keys of an embedded `HashMap`, each exactly once. -/
def mapKeys {β : Type} (m : List (String × β)) : List String :=
  (m.map (·.1)).dedup

/-- Iteration over an embedded `HashMap` (`.iter()`): every live key paired
with its current value, each key exactly once. -/
def mapEntries {β : Type} (m : List (String × β)) : List (String × β) :=
  (mapKeys m).filterMap (fun k => (mapLookup m k).map (fun v => (k, v)))

/-- Embedded petgraph `DiGraph<String, ()>`: node `i`'s weight is `nodes[i]`;
`edges` are `(source, target)` node-index pairs in insertion order. -/
structure DiGraphM where
  nodes : List String
  edges : List (Nat × Nat)
deriving DecidableEq

/-- `graph.find_edge(a, b).is_some()` on a directed graph. -/
def findEdgeD (g : DiGraphM) (a b : Nat) : Bool :=
  g.edges.any (fun e => e == (a, b))

/-- Engine state: the four fields of `GraphEngine` that `build_from_cards`
replaces (the `RwLock` concurrency wrappers and the `initialized` flag are
outside the embedding; every verified operation acts on one consistent
snapshot). -/
structure EngineState where
  directed_graph : DiGraphM
  node_indices : List (String × Nat)
  title_to_id : List (String × String)
  card_meta : List (String × CardMeta)
deriving DecidableEq

/-- First pass of `build_from_cards`, body of the `for card in &cards` loop:
add the card's node (petgraph assigns the next sequential index), register
its index, its title and aliases in the resolution table, and its metadata. -/
def addCardNode (st : EngineState) (card : CardListItem) : EngineState :=
  let idx := st.directed_graph.nodes.length
  { directed_graph := { st.directed_graph with
      nodes := st.directed_graph.nodes ++ [card.id] }
    node_indices := mapInsert st.node_indices card.id idx
    title_to_id := card.aliases.foldl (fun m a => mapInsert m a card.id)
      (mapInsert st.title_to_id card.title card.id)
    card_meta := mapInsert st.card_meta card.id
      ⟨card.title, card.card_type, card.links, card.aliases⟩ }

/-- Link resolution (`graph.rs` lines 167–172): a raw reference string is
taken verbatim when it is a known node id, otherwise looked up in the
title/alias table, otherwise unresolved. -/
def resolveTarget (indices : List (String × Nat))
    (title_map : List (String × String)) (link_text : String) :
    Option String :=
  if mapContains indices link_text then some link_text
  else mapLookup title_map link_text

/-- Second pass of `build_from_cards`, body of the `for link_text in
&card.links` loop: resolve the reference, drop it if unresolved, skip
self-loops, deduplicate via `find_edge`. -/
def addEdgeStep (indices : List (String × Nat))
    (title_map : List (String × String)) (source_idx : Nat) (g : DiGraphM)
    (link_text : String) : DiGraphM :=
  match resolveTarget indices title_map link_text with
  | none => g
  | some tid =>
    match mapLookup indices tid with
    | none => g
    | some target_idx =>
      if source_idx ≠ target_idx then
        if findEdgeD g source_idx target_idx then g
        else { g with edges := g.edges ++ [(source_idx, target_idx)] }
      else g

/-- Second pass of `build_from_cards`, body of the outer `for card in &cards`
loop. -/
def addCardEdges (indices : List (String × Nat))
    (title_map : List (String × String)) (g : DiGraphM)
    (card : CardListItem) : DiGraphM :=
  match mapLookup indices card.id with
  | none => g
  | some source_idx => card.links.foldl (addEdgeStep indices title_map source_idx) g

/-- The state after the first pass of `build_from_cards`, starting from the
fresh maps of line 136–139. -/
def buildPass1 (cards : List CardListItem) : EngineState :=
  cards.foldl addCardNode ⟨⟨[], []⟩, [], [], []⟩

/-- `GraphEngine::build_from_cards`: first pass adds all nodes and fills the
indices/title/metadata maps, second pass resolves every link reference into
a deduplicated, self-loop-free edge. -/
def build_from_cards (cards : List CardListItem) : EngineState :=
  let st := buildPass1 cards
  let g := cards.foldl (addCardEdges st.node_indices st.title_to_id)
    st.directed_graph
  { st with directed_graph := g }

/-- `graph.edges_directed(idx, Direction::Incoming)`. -/
def incomingEdges (g : DiGraphM) (idx : Nat) : List (Nat × Nat) :=
  g.edges.filter (fun e => e.2 == idx)

/-- `graph.edges_directed(idx, Direction::Outgoing).count()`. -/
def outDegree (g : DiGraphM) (idx : Nat) : Nat :=
  (g.edges.filter (fun e => e.1 == idx)).length

/-- `graph.edges_directed(idx, Direction::Incoming).count()`. -/
def inDegree (g : DiGraphM) (idx : Nat) : Nat :=
  (incomingEdges g idx).length

/-- The `(target_title, target_aliases)` pair computed at the top of
`get_backlinks` (lines 220–224): metadata of the queried card, falling back
to an empty title and alias list when the id is unknown. -/
def backlinkTargetMeta (st : EngineState) (card_id : String) :
    String × List String :=
  match mapLookup st.card_meta card_id with
  | some m => (m.title, m.aliases)
  | none => ("", [])

/-- `GraphEngine::get_backlinks`: walk the incoming edges of the queried
node and report each source's id with its cached title and card type
(`context` is always `None`; the extraction was removed). -/
def get_backlinks (st : EngineState) (card_id : String) : List BacklinkInfo :=
  match mapLookup st.node_indices card_id with
  | none => []
  | some target_idx =>
    (incomingEdges st.directed_graph target_idx).filterMap (fun e =>
      let source_id := st.directed_graph.nodes.getD e.1 ""
      (mapLookup st.card_meta source_id).map (fun source_meta =>
        ⟨source_id, source_meta.title, source_meta.card_type, none⟩))

/-- One update of the inner loop of `compute_pagerank` (lines 275–289): the
new rank of node `idx` is `(1 - damping) / n + damping * rank_sum`, where
`rank_sum` accumulates `ranks[source] / out_degree(source)` over the
incoming edges of `idx`, guarded by `source_out_degree > 0` exactly as in
the code. -/
def pagerankStep (g : DiGraphM) (damping : ℚ) (ranks : Nat → ℚ) :
    Nat → ℚ := fun idx =>
  let rank_sum := ((incomingEdges g idx).map (fun e =>
    if outDegree g e.1 > 0 then ranks e.1 / (outDegree g e.1 : ℚ) else 0)).sum
  (1 - damping) / (g.nodes.length : ℚ) + damping * rank_sum

/-- The rank table of `compute_pagerank` after `iterations` rounds: every
node starts at `1 / n` and `pagerankStep` is applied exactly `iterations`
times (no convergence check). -/
def pagerankRanks (g : DiGraphM) (damping : ℚ) (iterations : Nat) :
    Nat → ℚ :=
  (pagerankStep g damping)^[iterations] (fun _ => 1 / (g.nodes.length : ℚ))

/-- `GraphEngine::compute_pagerank`: empty map on an empty graph, otherwise
the final rank table keyed by card id through `node_indices`. -/
def compute_pagerank (st : EngineState) (damping : ℚ) (iterations : Nat) :
    List (String × ℚ) :=
  if st.directed_graph.nodes.length = 0 then []
  else (mapEntries st.node_indices).map (fun p =>
    (p.1, pagerankRanks st.directed_graph damping iterations p.2))

/-- Stable insertion into a sorted list: `x` goes in front of the first
element it compares `le` to, after all earlier-inserted equals. -/
def insertSorted {α : Type} (le : α → α → Bool) (x : α) : List α → List α
  | [] => [x]
  | y :: ys => if le x y then x :: y :: ys else y :: insertSorted le x ys

/-- Embedding of Rust's stable `sort_by`: a stable insertion sort.  Only
the ordering of the result and its underlying multiset are observable; the
verified properties depend on nothing else. -/
def sortBy {α : Type} (le : α → α → Bool) (l : List α) : List α :=
  l.foldr (insertSorted le) []

/-- `GraphEngine::get_importance_ranking`: join PageRank (damping `0.85`,
`20` iterations) with per-node in/out-degrees, sort descending by score
(stable), truncate to `limit`. -/
def get_importance_ranking (st : EngineState) (limit : Nat) :
    List CardImportance :=
  let pagerank := compute_pagerank st (17/20) 20
  let rankings := (mapEntries st.node_indices).filterMap (fun p =>
    let score := (mapLookup pagerank p.1).getD 0
    let inbound := inDegree st.directed_graph p.2
    let outbound := outDegree st.directed_graph p.2
    (mapLookup st.card_meta p.1).map (fun card_meta =>
      CardImportance.mk p.1 card_meta.title score inbound outbound))
  ((sortBy (fun a b => decide (b.score ≤ a.score)) rankings).take limit)

/-- Successors of a node along the directed edges. -/
def succList (g : DiGraphM) (u : Nat) : List Nat :=
  (g.edges.filter (fun e => e.1 == u)).map (·.2)

/-- One expansion round of the reachable set: the set together with all
successors of its members (deduplicated). -/
def expandR (g : DiGraphM) (s : List Nat) : List Nat :=
  (s ++ s.flatMap (succList g)).dedup

/-- All nodes reachable from `a` (zero or more edge steps): `expandR`
iterated as many times as there are nodes, which reaches the fixed point. -/
def reachSet (g : DiGraphM) (a : Nat) : List Nat :=
  (expandR g)^[g.nodes.length] [a]

/-- Decidable reachability. -/
def reachableB (g : DiGraphM) (a b : Nat) : Bool :=
  b ∈ reachSet g a

/-- Mutual reachability: `a` and `b` lie in the same strongly connected
component. -/
def mutualReach (g : DiGraphM) (a b : Nat) : Bool :=
  reachableB g a b && reachableB g b a

/-- The strongly connected component of node `v`: all node indices mutually
reachable with `v`. -/
def sccClass (g : DiGraphM) (v : Nat) : List Nat :=
  (List.range g.nodes.length).filter (fun w => mutualReach g v w)

/-- One step of the component enumeration: skip `v` when a listed component
already contains it, otherwise append `v`'s component. -/
def sccStep (g : DiGraphM) (acc : List (List Nat)) (v : Nat) :
    List (List Nat) :=
  if acc.any (fun c => v ∈ c) then acc else acc ++ [sccClass g v]

/-- The strongly connected components of the embedded graph, as the
equivalence classes of mutual reachability over the node indices.  This
embeds petgraph's `kosaraju_scc` by its contract (the list of strongly
connected components, each node in exactly one); the verified properties of
`get_clusters` do not depend on the component order kosaraju produces,
because the clusters are re-sorted by size below. -/
def sccList (g : DiGraphM) : List (List Nat) :=
  (List.range g.nodes.length).foldl (sccStep g) []

/-- `Iterator::max_by` over the members of a component, comparing PageRank
scores: the fold keeps the current maximum unless the new element is at
least as large (so the last of several equal maxima wins, as in Rust). -/
def maxByRank (score : String → ℚ) : List String → Option String
  | [] => none
  | x :: xs => some (xs.foldl (fun m y => if score m > score y then m else y) x)

/-- `GraphEngine::get_clusters`: map every strongly connected component to a
`KnowledgeCluster` whose `center_node` maximises PageRank (damping `0.85`,
`20` iterations) within the component, then sort the clusters by descending
size (stable).  The unused `connected_components` call of the Rust code
(bound to `_num_components`) has no observable effect and is omitted. -/
def get_clusters (st : EngineState) : List KnowledgeCluster :=
  let g := st.directed_graph
  let pagerank := compute_pagerank st (17/20) 20
  let score := fun id => (mapLookup pagerank id).getD 0
  let clusters := (sccList g).enum.map (fun p =>
    let nodes := p.2.map (fun idx => g.nodes.getD idx "")
    KnowledgeCluster.mk p.1 nodes.length nodes (maxByRank score nodes))
  sortBy (fun a b => decide (b.size ≤ a.size)) clusters

/-- `GraphEngine::get_orphan_nodes`: the ids whose node has neither incoming
nor outgoing edges. -/
def get_orphan_nodes (st : EngineState) : List String :=
  ((mapEntries st.node_indices).filter (fun p =>
    inDegree st.directed_graph p.2 = 0 ∧ outDegree st.directed_graph p.2 = 0)).map (·.1)

/-- The shared shape of the edge-adding loop body on the two paths that do
*not* deduplicate edges (`update_card` lines 454–468 and
`compute_pagerank_for_cards` lines 749–766): resolve the reference and
append the edge unless it would be a self-loop. -/
def updateEdgeStep (indices : List (String × Nat))
    (title_map : List (String × String)) (source_idx : Nat) (g : DiGraphM)
    (link_text : String) : DiGraphM :=
  match resolveTarget indices title_map link_text with
  | none => g
  | some tid =>
    match mapLookup indices tid with
    | none => g
    | some target_idx =>
      if source_idx ≠ target_idx then
        { g with edges := g.edges ++ [(source_idx, target_idx)] }
      else g

/-- `GraphEngine::update_card`: drop the card's old outgoing edges (or add a
fresh node for an unknown id), refresh the title/alias table, re-resolve the
new links into edges (self-loops skipped, no deduplication on this path),
and refresh the metadata. -/
def update_card (st : EngineState) (card_id : String) (links : List String)
    (title : String) (aliases : List String) : EngineState :=
  let (g0, indices) :=
    match mapLookup st.node_indices card_id with
    | some idx =>
      ({ st.directed_graph with
         edges := st.directed_graph.edges.filter (fun e => ¬ e.1 = idx) }, st.node_indices)
    | none =>
      ({ st.directed_graph with
         nodes := st.directed_graph.nodes ++ [card_id] },
       mapInsert st.node_indices card_id st.directed_graph.nodes.length)
  let source_idx := (mapLookup indices card_id).getD 0
  let title_map := aliases.foldl (fun m a => mapInsert m a card_id)
    (mapInsert st.title_to_id title card_id)
  let g := links.foldl (updateEdgeStep indices title_map source_idx) g0
  let meta :=
    match mapLookup st.card_meta card_id with
    | some m => mapInsert st.card_meta card_id
        { m with title := title, links := links, aliases := aliases }
    | none => mapInsert st.card_meta card_id ⟨title, "fleeting", links, aliases⟩
  ⟨g, indices, title_map, meta⟩

/-- Embedded petgraph `Graph<String, (), Undirected>` for the layout path. -/
structure UGraphM where
  nodes : List String
  edges : List (Nat × Nat)
deriving DecidableEq

/-- `graph.find_edge(a, b).is_some()` on an undirected graph: an edge stored
in either orientation connects the two endpoints. -/
def findEdgeU (g : UGraphM) (a b : Nat) : Bool :=
  g.edges.any (fun e => e == (a, b) || e == (b, a))

/-- `graph.neighbors(i)` on an undirected graph: the opposite endpoint of
every incident edge (the iteration order of petgraph's adjacency list is
irrelevant to every property proved below). -/
def neighborsU (g : UGraphM) (i : Nat) : List Nat :=
  g.edges.flatMap (fun e =>
    if e.1 == i then [e.2] else if e.2 == i then [e.1] else [])

/-- Build state of `compute_layout`'s first loop.  A `NodeState`'s `x`, `y`,
`vx`, `vy` fields are the force-simulation state: they are initialised from
`thread_rng` and evolved with `f32` square-root arithmetic, which is outside
the embedding (nondeterministic, floating point); the post-simulation
coordinates enter `compute_layout` below as an explicit parameter.  The
`title` and `card_type` fields of each `NodeState` are embedded here. -/
structure LayoutBuildSt where
  graph : UGraphM
  node_indices : List (String × Nat)
  title_to_id : List (String × String)
  node_states : List (String × (String × String))
deriving DecidableEq

/-- Body of `compute_layout`'s first `for card in &cards` loop: add the
node, register its index, fill the title/alias table and the node state. -/
def layoutAddCard (st : LayoutBuildSt) (card : CardListItem) : LayoutBuildSt :=
  { graph := { st.graph with nodes := st.graph.nodes ++ [card.id] }
    node_indices := mapInsert st.node_indices card.id st.graph.nodes.length
    title_to_id := card.aliases.foldl (fun m a => mapInsert m a card.id)
      (mapInsert st.title_to_id card.title card.id)
    node_states := mapInsert st.node_states card.id (card.title, card.card_type) }

/-- Body of `compute_layout`'s second loop, innermost step: resolve the
reference and add the undirected edge unless it already exists (in either
orientation) or would be a self-loop. -/
def layoutEdgeStep (indices : List (String × Nat))
    (title_map : List (String × String)) (source_idx : Nat) (g : UGraphM)
    (link_text : String) : UGraphM :=
  match resolveTarget indices title_map link_text with
  | none => g
  | some tid =>
    match mapLookup indices tid with
    | none => g
    | some target_idx =>
      if findEdgeU g source_idx target_idx = false ∧ source_idx ≠ target_idx then
        { g with edges := g.edges ++ [(source_idx, target_idx)] }
      else g

/-- Body of `compute_layout`'s second `for card in &cards` loop. -/
def layoutAddEdges (indices : List (String × Nat))
    (title_map : List (String × String)) (g : UGraphM)
    (card : CardListItem) : UGraphM :=
  match mapLookup indices card.id with
  | none => g
  | some source_idx =>
    card.links.foldl (layoutEdgeStep indices title_map source_idx) g

/-- The directed graph that `compute_pagerank_for_cards` builds internally:
same node set and link resolution, but edges are *not* deduplicated on this
path (`add_edge` is called without a `find_edge` check). -/
def pagerankCardsGraph (cards : List CardListItem)
    (title_to_id : List (String × String)) :
    DiGraphM × List (String × Nat) :=
  let di_indices := (cards.enum.map (fun p => (p.2.id, p.1))).reverse
  let g0 : DiGraphM := ⟨cards.map (·.id), []⟩
  let g := cards.foldl (fun g card =>
    match mapLookup di_indices card.id with
    | none => g
    | some source_idx =>
      card.links.foldl (updateEdgeStep di_indices title_to_id source_idx) g) g0
  (g, di_indices)

/-- `compute_pagerank_for_cards`: PageRank with damping `0.85` and `20`
iterations over the internally rebuilt directed graph. -/
def compute_pagerank_for_cards (cards : List CardListItem)
    (title_to_id : List (String × String)) : List (String × ℚ) :=
  let p := pagerankCardsGraph cards title_to_id
  if p.1.nodes.length = 0 then []
  else (mapEntries p.2).map (fun q =>
    (q.1, pagerankRanks p.1 (17/20) 20 q.2))

/-- Fuel that always suffices for the stack traversal below: one step to
return on an empty stack plus one step per possible pop. -/
def dfsFuel (g : UGraphM) : Nat :=
  1 + g.nodes.length * (2 * g.edges.length + 1)

/-- The `while let Some(node) = stack.pop()` loop of `compute_layout`'s
connected-component sweep: pop a node, skip it if visited, otherwise mark it
with the current cluster and push its unvisited neighbors.  `visited` keeps
the visit order; the list head is the stack top. -/
def dfsLoop (g : UGraphM) : Nat → List Nat → List (Nat × Nat) → Nat →
    List (Nat × Nat)
  | 0, _, visited, _ => visited
  | _ + 1, [], visited, _ => visited
  | fuel + 1, node :: rest, visited, cl =>
    if visited.any (fun p => p.1 == node) then dfsLoop g fuel rest visited cl
    else
      let visited' := visited ++ [(node, cl)]
      let pushed := (neighborsU g node).filter
        (fun nb => ¬ visited'.any (fun p => p.1 == nb))
      dfsLoop g fuel (pushed.reverse ++ rest) visited' cl

/-- The `for idx in graph.node_indices()` sweep assigning every node to a
connected component: returns the visit map (node index to cluster id) and
the number of clusters discovered. -/
def dfsSweep (g : UGraphM) : List (Nat × Nat) × Nat :=
  (List.range g.nodes.length).foldl
    (fun acc idx =>
      if acc.1.any (fun p => p.1 == idx) then acc
      else (dfsLoop g (dfsFuel g) [idx] acc.1 acc.2, acc.2 + 1))
    ([], 0)

/-- Per-node layout output (`GraphNode`), coordinates embedded as `ℚ`. -/
structure GraphNode where
  id : String
  title : String
  card_type : String
  x : ℚ
  y : ℚ
  neighbors : List String
  link_count : Nat
  importance : ℚ
  cluster_id : Nat
deriving DecidableEq

/-- Full layout payload (`GraphData`). -/
structure GraphData where
  nodes : List GraphNode
  links : List (String × String)
  cluster_count : Nat
  orphan_count : Nat
deriving DecidableEq

/-- The state after `compute_layout`'s first loop. -/
def layoutBuildSt (cards : List CardListItem) : LayoutBuildSt :=
  cards.foldl layoutAddCard ⟨⟨[], []⟩, [], [], []⟩

/-- The undirected graph that `compute_layout` builds in its first two
loops. -/
def layoutGraph (cards : List CardListItem) : UGraphM :=
  cards.foldl (layoutAddEdges (layoutBuildSt cards).node_indices
    (layoutBuildSt cards).title_to_id) (layoutBuildSt cards).graph

/-- `compute_layout`: build the undirected graph and the node states,
compute PageRank over the internally rebuilt directed graph, assign every
node to an undirected connected component, and merge everything into the
per-node payload.  `pos` supplies the post-simulation coordinates of every
node (the force-directed simulation itself operates on `f32` values seeded
from `thread_rng` and is outside the embedding; no other output field
depends on it).  petgraph's `connected_components` (the `num_clusters`
count) is embedded by its contract as the number of components the sweep
discovers. -/
def compute_layout (cards : List CardListItem) (pos : String → ℚ × ℚ) :
    GraphData :=
  let bst := layoutBuildSt cards
  let graph := layoutGraph cards
  let pagerank := compute_pagerank_for_cards cards bst.title_to_id
  let sweep := dfsSweep graph
  let cluster_assignment := sweep.1.foldl
    (fun m p => mapInsert m (graph.nodes.getD p.1 "") p.2) []
  let entries := mapEntries bst.node_states
  let final_nodes := entries.map (fun p =>
    let neighbors :=
      match mapLookup bst.node_indices p.1 with
      | some idx => (neighborsU graph idx).map (fun j => graph.nodes.getD j "")
      | none => []
    GraphNode.mk p.1 p.2.1 p.2.2 (pos p.1).1 (pos p.1).2 neighbors
      neighbors.length ((mapLookup pagerank p.1).getD 0)
      ((mapLookup cluster_assignment p.1).getD 0))
  let final_links := graph.edges.map (fun e =>
    (graph.nodes.getD e.1 "", graph.nodes.getD e.2 ""))
  GraphData.mk final_nodes final_links sweep.2
    ((final_nodes.filter (fun nd => nd.neighbors.isEmpty)).length)

/-- The specification's PageRank update, written independently of the code:
`rank[v] = (1-d)/N + d * Σ(rank[u]/outdegree(u))` where the sum ranges over
the nodes `u` with an edge `u → v`. -/
def pagerankSpecStep (g : DiGraphM) (d : ℚ) (ranks : Nat → ℚ) : Nat → ℚ :=
  fun v => (1 - d) / (g.nodes.length : ℚ) +
    d * ∑ u in Finset.range g.nodes.length,
      (if (u, v) ∈ g.edges then ranks u / (outDegree g u : ℚ) else 0)

/-- Reachability along directed edges (zero or more steps), the relation
underlying strong connectivity. -/
def Reaches (g : DiGraphM) : Nat → Nat → Prop :=
  Relation.ReflTransGen (fun u v => (u, v) ∈ g.edges)

/-- The undirected layout graph reinterpreted as a directed graph with
every edge in both orientations; reachability in it is undirected
connectivity. -/
def symGraph (g : UGraphM) : DiGraphM :=
  ⟨g.nodes, g.edges ++ g.edges.map (fun e => (e.2, e.1))⟩

/-- Undirected connectivity in the layout graph: reachability through edges
taken in either direction. -/
def reachU (g : UGraphM) (a b : Nat) : Prop :=
  Reaches (symGraph g) a b

/-! ### Demonstration inputs (the worked example of the specification, a
duplicate-id input, a single dangling card, a one-directional pair) -/

def demoCards : List CardListItem :=
  [⟨"a", "A", [], "note", ["B"]⟩, ⟨"b", "B", ["Bee"], "note", ["a"]⟩]

def dupIdCards : List CardListItem :=
  [⟨"a", "A", [], "note", []⟩, ⟨"a", "A2", [], "note", []⟩]

def singleCard : List CardListItem := [⟨"c", "C", [], "note", []⟩]

def oneWayCards : List CardListItem :=
  [⟨"a", "A", [], "note", ["b"]⟩, ⟨"b", "B", [], "note", []⟩]

/-! ### Association-map lemmas -/

theorem mapLookup_insert {β : Type} (m : List (String × β)) (k : String)
    (v : β) : mapLookup (mapInsert m k v) k = some v := by
  simp [mapLookup, mapInsert, List.find?_cons_of_pos]

theorem mapLookup_insert_ne {β : Type} (m : List (String × β))
    (k k' : String) (v : β) (h : k' ≠ k) :
    mapLookup (mapInsert m k v) k' = mapLookup m k' := by
  have : ((k, v).1 == k') = false := by
    simp only [beq_eq_false_iff_ne]
    exact fun h' => h h'.symm
  simp [mapLookup, mapInsert, List.find?_cons_of_neg, this]

theorem mapLookup_isSome_iff {β : Type} (m : List (String × β))
    (k : String) : (mapLookup m k).isSome = true ↔ k ∈ m.map (·.1) := by
  simp only [mapLookup, Option.isSome_map', List.find?_isSome, List.mem_map]
  constructor
  · rintro ⟨x, hx, hk⟩
    exact ⟨x, hx, beq_iff_eq.mp hk⟩
  · rintro ⟨x, hx, hk⟩
    exact ⟨x, hx, beq_iff_eq.mpr hk⟩

theorem mapLookup_eq_none_iff {β : Type} (m : List (String × β))
    (k : String) : mapLookup m k = none ↔ k ∉ m.map (·.1) := by
  constructor
  · intro h hmem
    have hs := (mapLookup_isSome_iff m k).mpr hmem
    rw [h] at hs
    simp at hs
  · intro hmem
    cases hE : mapLookup m k with
    | none => rfl
    | some v =>
      exact absurd ((mapLookup_isSome_iff m k).mp (by simp [hE])) hmem

theorem mapLookup_mem {β : Type} (m : List (String × β)) (k : String)
    (v : β) (h : mapLookup m k = some v) : (k, v) ∈ m := by
  obtain ⟨p, hp, hv⟩ := Option.map_eq_some'.mp h
  have hmem := List.mem_of_find?_eq_some hp
  have hkey : p.1 = k := by simpa [beq_iff_eq] using List.find?_some hp
  cases p
  simp only at hkey hv
  subst hkey; subst hv
  exact hmem

theorem mem_mapEntries {β : Type} (m : List (String × β)) (k : String)
    (v : β) : (k, v) ∈ mapEntries m ↔ mapLookup m k = some v := by
  simp only [mapEntries, List.mem_filterMap]
  constructor
  · rintro ⟨k', _, hx⟩
    obtain ⟨w, hw, heq⟩ := Option.map_eq_some'.mp hx
    obtain ⟨h1, h2⟩ := Prod.mk.injEq .. ▸ heq
    subst h1; subst h2; exact hw
  · intro h
    refine ⟨k, ?_, by simp [h]⟩
    have : (mapLookup m k).isSome = true := by simp [h]
    rw [mapLookup_isSome_iff] at this
    simpa [mapKeys, List.mem_dedup] using this

theorem mem_mapEntries' {β : Type} (m : List (String × β)) (p : String × β)
    (h : p ∈ mapEntries m) : mapLookup m p.1 = some p.2 := by
  cases p; exact (mem_mapEntries m _ _).mp h

/-- Membership in a fold of inserts with a fixed value (the alias loop). -/
theorem mem_foldl_mapInsert {β : Type} (as : List String) (v : β)
    (m0 : List (String × β)) (p : String × β)
    (h : p ∈ as.foldl (fun m a => mapInsert m a v) m0) :
    p ∈ m0 ∨ p.2 = v := by
  induction as generalizing m0 with
  | nil => exact Or.inl h
  | cons a as ih =>
    rcases ih (mapInsert m0 a v) h with h' | h'
    · rcases List.mem_cons.mp h' with h'' | h''
      · right; rw [h'']
      · exact Or.inl h''
    · exact Or.inr h'

/-! ### First build pass: node list, index map, metadata -/

theorem foldl_addCardNode_nodes (cs : List CardListItem) (st : EngineState) :
    (cs.foldl addCardNode st).directed_graph.nodes =
      st.directed_graph.nodes ++ cs.map (·.id) := by
  induction cs generalizing st with
  | nil => simp
  | cons c cs ih => simp [List.foldl_cons, ih, addCardNode, List.append_assoc]

theorem foldl_addCardNode_edges (cs : List CardListItem) (st : EngineState) :
    (cs.foldl addCardNode st).directed_graph.edges =
      st.directed_graph.edges := by
  induction cs generalizing st with
  | nil => rfl
  | cons c cs ih => simp [List.foldl_cons, ih, addCardNode]

theorem foldl_addCardNode_indices_keys (cs : List CardListItem)
    (st : EngineState) :
    (cs.foldl addCardNode st).node_indices.map (·.1) =
      (cs.map (·.id)).reverse ++ st.node_indices.map (·.1) := by
  induction cs generalizing st with
  | nil => simp
  | cons c cs ih =>
    simp [List.foldl_cons, ih, addCardNode, mapInsert]

theorem foldl_addCardNode_indices_inv (cs : List CardListItem)
    (st : EngineState)
    (h : ∀ p ∈ st.node_indices, p.2 < st.directed_graph.nodes.length ∧
      st.directed_graph.nodes.getD p.2 "" = p.1) :
    ∀ p ∈ (cs.foldl addCardNode st).node_indices,
      p.2 < (cs.foldl addCardNode st).directed_graph.nodes.length ∧
      (cs.foldl addCardNode st).directed_graph.nodes.getD p.2 "" = p.1 := by
  induction cs generalizing st with
  | nil => exact h
  | cons c cs ih =>
    refine ih (addCardNode st c) ?_
    intro p hp
    rcases List.mem_cons.mp hp with hp | hp
    · subst hp
      refine ⟨by simp [addCardNode], ?_⟩
      show (st.directed_graph.nodes ++ [c.id]).getD
        st.directed_graph.nodes.length "" = c.id
      rw [List.getD_append_right _ _ _ _ le_rfl]
      simp
    · obtain ⟨h1, h2⟩ := h p hp
      refine ⟨?_, ?_⟩
      · simp only [addCardNode, List.length_append, List.length_cons]
        omega
      · show (st.directed_graph.nodes ++ [c.id]).getD p.2 "" = p.1
        rw [List.getD_append _ _ _ _ h1]
        exact h2

theorem foldl_addCardNode_title_values (cs : List CardListItem)
    (st : EngineState)
    (h : ∀ p ∈ st.title_to_id, p.2 ∈ st.node_indices.map (·.1)) :
    ∀ p ∈ (cs.foldl addCardNode st).title_to_id,
      p.2 ∈ (cs.foldl addCardNode st).node_indices.map (·.1) := by
  induction cs generalizing st with
  | nil => exact h
  | cons c cs ih =>
    refine ih (addCardNode st c) ?_
    intro p hp
    simp only [addCardNode] at hp ⊢
    have hkeys : c.id ∈ (mapInsert st.node_indices c.id
        st.directed_graph.nodes.length).map (·.1) := by
      simp [mapInsert]
    rcases mem_foldl_mapInsert c.aliases c.id _ p hp with h' | h'
    · rcases List.mem_cons.mp h' with h'' | h''
      · rw [h'']; exact hkeys
      · have := h p h''
        simp only [mapInsert, List.map_cons]
        exact List.mem_cons_of_mem _ this
    · rw [h']; exact hkeys

theorem foldl_addCardNode_meta_keys (cs : List CardListItem)
    (st : EngineState) :
    (cs.foldl addCardNode st).card_meta.map (·.1) =
      (cs.map (·.id)).reverse ++ st.card_meta.map (·.1) := by
  induction cs generalizing st with
  | nil => simp
  | cons c cs ih =>
    simp [List.foldl_cons, ih, addCardNode, mapInsert]

theorem foldl_addCardNode_meta_content (cs : List CardListItem)
    (st : EngineState) :
    ∀ p ∈ (cs.foldl addCardNode st).card_meta,
      (∃ c ∈ cs, c.id = p.1 ∧
        p.2 = ⟨c.title, c.card_type, c.links, c.aliases⟩) ∨
      p ∈ st.card_meta := by
  induction cs generalizing st with
  | nil => exact fun p hp => Or.inr hp
  | cons c cs ih =>
    intro p hp
    rcases ih (addCardNode st c) p hp with h' | h'
    · obtain ⟨c', hc', h1, h2⟩ := h'
      exact Or.inl ⟨c', List.mem_cons_of_mem _ hc', h1, h2⟩
    · simp only [addCardNode, mapInsert] at h'
      rcases List.mem_cons.mp h' with h'' | h''
      · exact Or.inl ⟨c, List.mem_cons_self _ _, by rw [h'']; exact ⟨rfl, rfl⟩⟩
      · exact Or.inr h''

/-! ### Second build pass: edge characterization and invariants -/

theorem findEdgeD_iff (g : DiGraphM) (a b : Nat) :
    findEdgeD g a b = true ↔ (a, b) ∈ g.edges := by
  simp [findEdgeD, List.any_eq_true, beq_iff_eq]

/-- The condition under which the second pass adds the edge `e` while
processing link `l` of a card whose source index is `s`. -/
def edgeCond (indices : List (String × Nat))
    (title_map : List (String × String)) (s : Nat) (l : String)
    (e : Nat × Nat) : Prop :=
  e.1 = s ∧ ∃ tid, resolveTarget indices title_map l = some tid ∧
    mapLookup indices tid = some e.2 ∧ s ≠ e.2

theorem addEdgeStep_none (indices : List (String × Nat))
    (title_map : List (String × String)) (s : Nat) (g : DiGraphM)
    (l : String) (hR : resolveTarget indices title_map l = none) :
    addEdgeStep indices title_map s g l = g := by
  simp [addEdgeStep, hR]

theorem addEdgeStep_some (indices : List (String × Nat))
    (title_map : List (String × String)) (s : Nat) (g : DiGraphM)
    (l : String) (tid : String) (t : Nat)
    (hR : resolveTarget indices title_map l = some tid)
    (hL : mapLookup indices tid = some t) :
    addEdgeStep indices title_map s g l =
      if s ≠ t then
        if findEdgeD g s t then g
        else { g with edges := g.edges ++ [(s, t)] }
      else g := by
  simp [addEdgeStep, hR, hL]

theorem addEdgeStep_some_noidx (indices : List (String × Nat))
    (title_map : List (String × String)) (s : Nat) (g : DiGraphM)
    (l : String) (tid : String)
    (hR : resolveTarget indices title_map l = some tid)
    (hL : mapLookup indices tid = none) :
    addEdgeStep indices title_map s g l = g := by
  simp [addEdgeStep, hR, hL]

theorem addEdgeStep_nodes (indices : List (String × Nat))
    (title_map : List (String × String)) (s : Nat) (g : DiGraphM)
    (l : String) : (addEdgeStep indices title_map s g l).nodes = g.nodes := by
  cases hR : resolveTarget indices title_map l with
  | none => rw [addEdgeStep_none indices title_map s g l hR]
  | some tid =>
    cases hL : mapLookup indices tid with
    | none => rw [addEdgeStep_some_noidx indices title_map s g l tid hR hL]
    | some t =>
      rw [addEdgeStep_some indices title_map s g l tid t hR hL]
      by_cases hst : s = t
      · simp [hst]
      · by_cases hF : findEdgeD g s t <;> simp [hst, hF]

theorem addEdgeStep_mem_iff (indices : List (String × Nat))
    (title_map : List (String × String)) (s : Nat) (g : DiGraphM)
    (l : String) (e : Nat × Nat) :
    e ∈ (addEdgeStep indices title_map s g l).edges ↔
      e ∈ g.edges ∨ edgeCond indices title_map s l e := by
  cases hR : resolveTarget indices title_map l with
  | none =>
    rw [addEdgeStep_none indices title_map s g l hR]
    simp only [edgeCond, hR]
    simp
  | some tid =>
    cases hL : mapLookup indices tid with
    | none =>
      rw [addEdgeStep_some_noidx indices title_map s g l tid hR hL]
      constructor
      · exact Or.inl
      · rintro (h | ⟨h1, tid', h2, h3, h4⟩)
        · exact h
        · rw [hR] at h2
          cases h2
          rw [hL] at h3
          cases h3
    | some t =>
      rw [addEdgeStep_some indices title_map s g l tid t hR hL]
      by_cases hst : s = t
      · subst hst
        simp only [ne_eq, not_true_eq_false, if_false, ite_false]
        constructor
        · exact Or.inl
        · rintro (h | ⟨h1, tid', h2, h3, h4⟩)
          · exact h
          · rw [hR] at h2
            cases h2
            rw [hL] at h3
            cases h3
            exact absurd rfl h4
      · by_cases hF : findEdgeD g s t
        · simp only [ne_eq, hst, not_false_eq_true, ite_true, hF, if_true]
          constructor
          · exact Or.inl
          · rintro (h | ⟨h1, tid', h2, h3, h4⟩)
            · exact h
            · rw [hR] at h2
              cases h2
              rw [hL] at h3
              cases h3
              obtain ⟨e1, e2⟩ := e
              simp only at h1 ⊢
              subst h1
              exact (findEdgeD_iff _ _ _).mp hF
        · simp only [ne_eq, hst, not_false_eq_true, ite_true, hF,
            Bool.false_eq_true, if_false, List.mem_append, List.mem_singleton]
          constructor
          · rintro (h | h)
            · exact Or.inl h
            · subst h
              exact Or.inr ⟨rfl, tid, hR, hL, hst⟩
          · rintro (h | ⟨h1, tid', h2, h3, h4⟩)
            · exact Or.inl h
            · rw [hR] at h2
              cases h2
              rw [hL] at h3
              cases h3
              obtain ⟨e1, e2⟩ := e
              simp only at h1 ⊢
              subst h1
              exact Or.inr rfl

theorem addCardEdges_nodes (indices : List (String × Nat))
    (title_map : List (String × String)) (g : DiGraphM)
    (c : CardListItem) : (addCardEdges indices title_map g c).nodes = g.nodes := by
  unfold addCardEdges
  cases mapLookup indices c.id with
  | none => rfl
  | some s =>
    simp only
    have main : ∀ (ls : List String) (g : DiGraphM),
        (ls.foldl (addEdgeStep indices title_map s) g).nodes = g.nodes := by
      intro ls
      induction ls with
      | nil => intro g; rfl
      | cons l ls ih =>
        intro g
        rw [List.foldl_cons, ih]
        exact addEdgeStep_nodes indices title_map s g l
    exact main c.links g

theorem addCardEdges_mem_iff (indices : List (String × Nat))
    (title_map : List (String × String)) (g : DiGraphM)
    (c : CardListItem) (e : Nat × Nat) :
    e ∈ (addCardEdges indices title_map g c).edges ↔
      e ∈ g.edges ∨ ∃ s, mapLookup indices c.id = some s ∧
        ∃ l ∈ c.links, edgeCond indices title_map s l e := by
  unfold addCardEdges
  cases hI : mapLookup indices c.id with
  | none => simp
  | some s =>
    simp only [Option.some.injEq]
    have main : ∀ (ls : List String) (g : DiGraphM),
        e ∈ (ls.foldl (addEdgeStep indices title_map s) g).edges ↔
          e ∈ g.edges ∨ ∃ l ∈ ls, edgeCond indices title_map s l e := by
      intro ls
      induction ls with
      | nil => simp
      | cons l ls ih =>
        intro g
        rw [List.foldl_cons, ih, addEdgeStep_mem_iff]
        constructor
        · rintro ((h | h) | ⟨l', hl', h⟩)
          · exact Or.inl h
          · exact Or.inr ⟨l, List.mem_cons_self _ _, h⟩
          · exact Or.inr ⟨l', List.mem_cons_of_mem _ hl', h⟩
        · rintro (h | ⟨l', hl', h⟩)
          · exact Or.inl (Or.inl h)
          · rcases List.mem_cons.mp hl' with h' | h'
            · subst h'
              exact Or.inl (Or.inr h)
            · exact Or.inr ⟨l', h', h⟩
    rw [main c.links g]
    constructor
    · rintro (h | ⟨l, hl, h⟩)
      · exact Or.inl h
      · exact Or.inr ⟨s, ⟨rfl, l, hl, h⟩⟩
    · rintro (h | ⟨s', ⟨hs', l, hl, h⟩⟩)
      · exact Or.inl h
      · cases hs'
        exact Or.inr ⟨l, hl, h⟩

theorem foldl_addCardEdges_mem_iff (cs : List CardListItem)
    (indices : List (String × Nat)) (title_map : List (String × String))
    (g : DiGraphM) (e : Nat × Nat) :
    e ∈ (cs.foldl (addCardEdges indices title_map) g).edges ↔
      e ∈ g.edges ∨ ∃ c ∈ cs, ∃ s, mapLookup indices c.id = some s ∧
        ∃ l ∈ c.links, edgeCond indices title_map s l e := by
  induction cs generalizing g with
  | nil => simp
  | cons c cs ih =>
    rw [List.foldl_cons, ih, addCardEdges_mem_iff]
    constructor
    · rintro ((h | h) | ⟨c', hc', h⟩)
      · exact Or.inl h
      · exact Or.inr ⟨c, List.mem_cons_self _ _, h⟩
      · exact Or.inr ⟨c', List.mem_cons_of_mem _ hc', h⟩
    · rintro (h | ⟨c', hc', h⟩)
      · exact Or.inl (Or.inl h)
      · rcases List.mem_cons.mp hc' with h' | h'
        · subst h'
          exact Or.inl (Or.inr h)
        · exact Or.inr ⟨c', h', h⟩

theorem foldl_addCardEdges_nodes (cs : List CardListItem)
    (indices : List (String × Nat)) (title_map : List (String × String))
    (g : DiGraphM) :
    (cs.foldl (addCardEdges indices title_map) g).nodes = g.nodes := by
  induction cs generalizing g with
  | nil => rfl
  | cons c cs ih =>
    rw [List.foldl_cons, ih, addCardEdges_nodes]

/-! ### Build-level facts -/

theorem build_node_indices (cards : List CardListItem) :
    (build_from_cards cards).node_indices = (buildPass1 cards).node_indices := rfl

theorem build_title_to_id (cards : List CardListItem) :
    (build_from_cards cards).title_to_id = (buildPass1 cards).title_to_id := rfl

theorem build_card_meta (cards : List CardListItem) :
    (build_from_cards cards).card_meta = (buildPass1 cards).card_meta := rfl

theorem buildPass1_nodes (cards : List CardListItem) :
    (buildPass1 cards).directed_graph.nodes = cards.map (·.id) := by
  unfold buildPass1
  rw [foldl_addCardNode_nodes]
  rfl

theorem buildPass1_edges (cards : List CardListItem) :
    (buildPass1 cards).directed_graph.edges = [] := by
  unfold buildPass1
  rw [foldl_addCardNode_edges]

theorem build_nodes (cards : List CardListItem) :
    (build_from_cards cards).directed_graph.nodes = cards.map (·.id) := by
  show (cards.foldl (addCardEdges (buildPass1 cards).node_indices
    (buildPass1 cards).title_to_id) (buildPass1 cards).directed_graph).nodes = _
  rw [foldl_addCardEdges_nodes, buildPass1_nodes]

theorem build_edges_mem_iff (cards : List CardListItem) (e : Nat × Nat) :
    e ∈ (build_from_cards cards).directed_graph.edges ↔
      ∃ c ∈ cards, ∃ s,
        mapLookup (buildPass1 cards).node_indices c.id = some s ∧
        ∃ l ∈ c.links,
          edgeCond (buildPass1 cards).node_indices
            (buildPass1 cards).title_to_id s l e := by
  show e ∈ (cards.foldl (addCardEdges (buildPass1 cards).node_indices
    (buildPass1 cards).title_to_id) (buildPass1 cards).directed_graph).edges ↔ _
  rw [foldl_addCardEdges_mem_iff, buildPass1_edges]
  simp

theorem buildPass1_indices_keys (cards : List CardListItem) :
    (buildPass1 cards).node_indices.map (·.1) = (cards.map (·.id)).reverse := by
  unfold buildPass1
  rw [foldl_addCardNode_indices_keys]
  simp

theorem buildPass1_indices_contains_iff (cards : List CardListItem)
    (k : String) :
    mapContains (buildPass1 cards).node_indices k = true ↔
      k ∈ cards.map (·.id) := by
  rw [mapContains, mapLookup_isSome_iff, buildPass1_indices_keys,
    List.mem_reverse]

theorem buildPass1_indices_inv (cards : List CardListItem) :
    ∀ p ∈ (buildPass1 cards).node_indices,
      p.2 < cards.length ∧ (cards.map (·.id)).getD p.2 "" = p.1 := by
  intro p hp
  have h := foldl_addCardNode_indices_inv cards ⟨⟨[], []⟩, [], [], []⟩
    (by intro p hp; cases hp) p hp
  rw [foldl_addCardNode_nodes] at h
  simpa using h

theorem buildPass1_title_values (cards : List CardListItem) :
    ∀ p ∈ (buildPass1 cards).title_to_id,
      p.2 ∈ (buildPass1 cards).node_indices.map (·.1) := by
  exact foldl_addCardNode_title_values cards ⟨⟨[], []⟩, [], [], []⟩
    (by intro p hp; cases hp)

theorem buildPass1_meta_keys (cards : List CardListItem) :
    (buildPass1 cards).card_meta.map (·.1) = (cards.map (·.id)).reverse := by
  unfold buildPass1
  rw [foldl_addCardNode_meta_keys]
  simp

theorem buildPass1_meta_content (cards : List CardListItem) :
    ∀ p ∈ (buildPass1 cards).card_meta,
      ∃ c ∈ cards, c.id = p.1 ∧
        p.2 = ⟨c.title, c.card_type, c.links, c.aliases⟩ := by
  intro p hp
  rcases foldl_addCardNode_meta_content cards ⟨⟨[], []⟩, [], [], []⟩ p hp with
    h | h
  · exact h
  · cases h

/-- Every edge of the built graph has both endpoints strictly below the
number of cards (the node count). -/
theorem build_edges_wf (cards : List CardListItem) :
    ∀ e ∈ (build_from_cards cards).directed_graph.edges,
      e.1 < cards.length ∧ e.2 < cards.length := by
  intro e he
  rw [build_edges_mem_iff] at he
  obtain ⟨c, _, s, hs, l, _, h1, tid, _, hL, _⟩ := he
  constructor
  · rw [h1]
    exact (buildPass1_indices_inv cards _ (mapLookup_mem _ _ _ hs)).1
  · exact (buildPass1_indices_inv cards _ (mapLookup_mem _ _ _ hL)).1

/-- No edge of the built graph is a self-loop. -/
theorem build_no_self_loop (cards : List CardListItem) :
    ∀ e ∈ (build_from_cards cards).directed_graph.edges, e.1 ≠ e.2 := by
  intro e he
  rw [build_edges_mem_iff] at he
  obtain ⟨c, _, s, hs, l, _, h1, tid, _, _, hne⟩ := he
  rw [h1]
  exact hne

theorem addEdgeStep_nodup (indices : List (String × Nat))
    (title_map : List (String × String)) (s : Nat) (g : DiGraphM)
    (l : String) (h : g.edges.Nodup) :
    (addEdgeStep indices title_map s g l).edges.Nodup := by
  cases hR : resolveTarget indices title_map l with
  | none => rw [addEdgeStep_none indices title_map s g l hR]; exact h
  | some tid =>
    cases hL : mapLookup indices tid with
    | none =>
      rw [addEdgeStep_some_noidx indices title_map s g l tid hR hL]; exact h
    | some t =>
      rw [addEdgeStep_some indices title_map s g l tid t hR hL]
      by_cases hst : s = t
      · simp only [hst, ne_eq, not_true_eq_false, if_false, ite_false]
        exact h
      · by_cases hF : findEdgeD g s t
        · simp only [ne_eq, hst, not_false_eq_true, ite_true, hF, if_true]
          exact h
        · simp only [ne_eq, hst, not_false_eq_true, ite_true, hF,
            Bool.false_eq_true, if_false]
        
          have hnotmem : (s, t) ∉ g.edges := by
            intro hmem
            exact absurd ((findEdgeD_iff g s t).mpr hmem) (by simp [hF])
          simp [List.nodup_append, h, hnotmem]

theorem addCardEdges_nodup (indices : List (String × Nat))
    (title_map : List (String × String)) (g : DiGraphM)
    (c : CardListItem) (h : g.edges.Nodup) :
    (addCardEdges indices title_map g c).edges.Nodup := by
  unfold addCardEdges
  cases mapLookup indices c.id with
  | none => exact h
  | some s =>
    simp only
    have main : ∀ (ls : List String) (g : DiGraphM), g.edges.Nodup →
        (ls.foldl (addEdgeStep indices title_map s) g).edges.Nodup := by
      intro ls
      induction ls with
      | nil => exact fun g h => h
      | cons l ls ih =>
        intro g hg
        rw [List.foldl_cons]
        exact ih _ (addEdgeStep_nodup indices title_map s g l hg)
    exact main c.links g h

/-- The edge list of the built graph has no duplicates (at most one edge
per ordered node pair). -/
theorem build_edges_nodup (cards : List CardListItem) :
    (build_from_cards cards).directed_graph.edges.Nodup := by
  show (cards.foldl (addCardEdges (buildPass1 cards).node_indices
    (buildPass1 cards).title_to_id) (buildPass1 cards).directed_graph).edges.Nodup
  have main : ∀ (cs : List CardListItem) (g : DiGraphM), g.edges.Nodup →
      (cs.foldl (addCardEdges (buildPass1 cards).node_indices
        (buildPass1 cards).title_to_id) g).edges.Nodup := by
    intro cs
    induction cs with
    | nil => exact fun g h => h
    | cons c cs ih =>
      intro g hg
      rw [List.foldl_cons]
      exact ih _ (addCardEdges_nodup _ _ g c hg)
  refine main cards _ ?_
  rw [buildPass1_edges]
  exact List.nodup_nil

/-! ### Self-loop freedom on the auxiliary edge paths -/

theorem updateEdgeStep_mem (indices : List (String × Nat))
    (title_map : List (String × String)) (s : Nat) (g : DiGraphM)
    (l : String) (e : Nat × Nat)
    (he : e ∈ (updateEdgeStep indices title_map s g l).edges) :
    e ∈ g.edges ∨ (e.1 = s ∧ s ≠ e.2) := by
  cases hR : resolveTarget indices title_map l with
  | none =>
    simp only [updateEdgeStep, hR] at he
    exact Or.inl he
  | some tid =>
    cases hL : mapLookup indices tid with
    | none =>
      simp only [updateEdgeStep, hR, hL] at he
      exact Or.inl he
    | some t =>
      simp only [updateEdgeStep, hR, hL] at he
      by_cases hst : s = t
      · simp only [hst, ne_eq, not_true_eq_false, if_false, ite_false] at he
        exact Or.inl he
      · simp only [ne_eq, hst, not_false_eq_true, ite_true, List.mem_append,
          List.mem_singleton] at he
        rcases he with he | he
        · exact Or.inl he
        · subst he
          exact Or.inr ⟨rfl, hst⟩

theorem foldl_updateEdgeStep_no_self (ls : List String)
    (indices : List (String × Nat)) (title_map : List (String × String))
    (s : Nat) (g : DiGraphM) (h : ∀ e ∈ g.edges, e.1 ≠ e.2) :
    ∀ e ∈ (ls.foldl (updateEdgeStep indices title_map s) g).edges,
      e.1 ≠ e.2 := by
  induction ls generalizing g with
  | nil => exact h
  | cons l ls ih =>
    rw [List.foldl_cons]
    refine ih _ ?_
    intro e he
    rcases updateEdgeStep_mem indices title_map s g l e he with he' | ⟨h1, h2⟩
    · exact h e he'
    · rw [h1]
      exact h2

theorem layoutEdgeStep_mem (indices : List (String × Nat))
    (title_map : List (String × String)) (s : Nat) (g : UGraphM)
    (l : String) (e : Nat × Nat)
    (he : e ∈ (layoutEdgeStep indices title_map s g l).edges) :
    e ∈ g.edges ∨
      (e.1 = s ∧ s ≠ e.2 ∧ ∃ tid, mapLookup indices tid = some e.2) := by
  cases hR : resolveTarget indices title_map l with
  | none =>
    simp only [layoutEdgeStep, hR] at he
    exact Or.inl he
  | some tid =>
    cases hL : mapLookup indices tid with
    | none =>
      simp only [layoutEdgeStep, hR, hL] at he
      exact Or.inl he
    | some t =>
      simp only [layoutEdgeStep, hR, hL] at he
      by_cases hc : findEdgeU g s t = false ∧ s ≠ t
      · rw [if_pos hc] at he
        simp only [List.mem_append, List.mem_singleton] at he
        rcases he with he | he
        · exact Or.inl he
        · subst he
          exact Or.inr ⟨rfl, hc.2, tid, hL⟩
      · rw [if_neg hc] at he
        exact Or.inl he

theorem foldl_layoutEdgeStep_no_self (ls : List String)
    (indices : List (String × Nat)) (title_map : List (String × String))
    (s : Nat) (g : UGraphM) (h : ∀ e ∈ g.edges, e.1 ≠ e.2) :
    ∀ e ∈ (ls.foldl (layoutEdgeStep indices title_map s) g).edges,
      e.1 ≠ e.2 := by
  induction ls generalizing g with
  | nil => exact h
  | cons l ls ih =>
    rw [List.foldl_cons]
    refine ih _ ?_
    intro e he
    rcases layoutEdgeStep_mem indices title_map s g l e he with
      he' | ⟨h1, h2, _⟩
    · exact h e he'
    · rw [h1]
      exact h2

theorem layoutAddEdges_no_self (indices : List (String × Nat))
    (title_map : List (String × String)) (g : UGraphM) (c : CardListItem)
    (h : ∀ e ∈ g.edges, e.1 ≠ e.2) :
    ∀ e ∈ (layoutAddEdges indices title_map g c).edges, e.1 ≠ e.2 := by
  unfold layoutAddEdges
  cases mapLookup indices c.id with
  | none => exact h
  | some s => exact foldl_layoutEdgeStep_no_self c.links indices title_map s g h

theorem foldl_layoutAddCard_graph (cs : List CardListItem)
    (st : LayoutBuildSt) :
    (cs.foldl layoutAddCard st).graph.nodes =
      st.graph.nodes ++ cs.map (·.id) ∧
    (cs.foldl layoutAddCard st).graph.edges = st.graph.edges := by
  induction cs generalizing st with
  | nil => simp
  | cons c cs ih =>
    rw [List.foldl_cons]
    obtain ⟨h1, h2⟩ := ih (layoutAddCard st c)
    constructor
    · rw [h1]
      simp [layoutAddCard, List.append_assoc]
    · rw [h2]
      rfl

theorem layoutBuildSt_graph_nodes (cards : List CardListItem) :
    (layoutBuildSt cards).graph.nodes = cards.map (·.id) := by
  unfold layoutBuildSt
  rw [(foldl_layoutAddCard_graph cards ⟨⟨[], []⟩, [], [], []⟩).1]
  rfl

theorem layoutBuildSt_graph_edges (cards : List CardListItem) :
    (layoutBuildSt cards).graph.edges = [] := by
  unfold layoutBuildSt
  rw [(foldl_layoutAddCard_graph cards ⟨⟨[], []⟩, [], [], []⟩).2]

/-- No edge of the layout-path undirected graph is a self-loop. -/
theorem layoutGraph_no_self_loop (cards : List CardListItem) :
    ∀ e ∈ (layoutGraph cards).edges, e.1 ≠ e.2 := by
  unfold layoutGraph
  have main : ∀ (cs : List CardListItem) (g : UGraphM),
      (∀ e ∈ g.edges, e.1 ≠ e.2) →
      ∀ e ∈ (cs.foldl (layoutAddEdges (layoutBuildSt cards).node_indices
        (layoutBuildSt cards).title_to_id) g).edges, e.1 ≠ e.2 := by
    intro cs
    induction cs with
    | nil => exact fun g h => h
    | cons c cs ih =>
      intro g hg
      rw [List.foldl_cons]
      exact ih _ (layoutAddEdges_no_self _ _ g c hg)
  refine main cards _ ?_
  rw [layoutBuildSt_graph_edges]
  intro e he
  cases he

theorem update_card_no_self_loop (st : EngineState) (card_id : String)
    (links : List String) (title : String) (aliases : List String)
    (h : ∀ e ∈ st.directed_graph.edges, e.1 ≠ e.2) :
    ∀ e ∈ (update_card st card_id links title aliases).directed_graph.edges,
      e.1 ≠ e.2 := by
  unfold update_card
  cases hI : mapLookup st.node_indices card_id with
  | none =>
    simp only
    refine foldl_updateEdgeStep_no_self links _ _ _ _ ?_
    exact h
  | some idx =>
    simp only
    refine foldl_updateEdgeStep_no_self links _ _ _ _ ?_
    intro e he
    exact h e (List.mem_of_mem_filter he)

/-! ### Claims -/

/-- C1: for every card list and every raw reference string, the builder
resolves the reference by (1) using it directly when it equals an existing
node id, (2) otherwise consulting the title/alias resolution index, and
(3) otherwise silently dropping it — the edge step leaves the graph
unchanged.  Matching is exact `String` equality (case-sensitive, no
partial or fuzzy matching). -/
theorem C1_link_resolution (cards : List CardListItem) (link_text : String) :
    (link_text ∈ cards.map (·.id) →
      resolveTarget (build_from_cards cards).node_indices
        (build_from_cards cards).title_to_id link_text = some link_text) ∧
    (link_text ∉ cards.map (·.id) →
      resolveTarget (build_from_cards cards).node_indices
        (build_from_cards cards).title_to_id link_text =
        mapLookup (build_from_cards cards).title_to_id link_text) ∧
    (link_text ∉ cards.map (·.id) →
      mapLookup (build_from_cards cards).title_to_id link_text = none →
      resolveTarget (build_from_cards cards).node_indices
        (build_from_cards cards).title_to_id link_text = none ∧
      ∀ (g : DiGraphM) (s : Nat),
        addEdgeStep (build_from_cards cards).node_indices
          (build_from_cards cards).title_to_id s g link_text = g) := by
  have hkey : mapContains (build_from_cards cards).node_indices link_text =
      true ↔ link_text ∈ cards.map (·.id) := by
    rw [build_node_indices]
    exact buildPass1_indices_contains_iff cards link_text
  refine ⟨?_, ?_, ?_⟩
  · intro h
    unfold resolveTarget
    rw [if_pos (hkey.mpr h)]
  · intro h
    unfold resolveTarget
    rw [if_neg]
    intro hc
    exact h (hkey.mp hc)
  · intro h hnone
    have hres : resolveTarget (build_from_cards cards).node_indices
        (build_from_cards cards).title_to_id link_text = none := by
      unfold resolveTarget
      rw [if_neg, hnone]
      intro hc
      exact h (hkey.mp hc)
    exact ⟨hres, fun g s => addEdgeStep_none _ _ s g link_text hres⟩

theorem C1_witness :
    resolveTarget (build_from_cards demoCards).node_indices
      (build_from_cards demoCards).title_to_id "a" = some "a" ∧
    resolveTarget (build_from_cards demoCards).node_indices
      (build_from_cards demoCards).title_to_id "Zzz" = none :=
  ⟨(C1_link_resolution demoCards "a").1 (by decide),
   ((C1_link_resolution demoCards "Zzz").2.2 (by decide) (by decide)).1⟩

/-- C5: `get_orphan_nodes` returns exactly the ids of the nodes with
in-degree `0` and out-degree `0`; a node with any incoming or any outgoing
edge is never returned. -/
theorem C5_orphans (cards : List CardListItem) (id : String) :
    id ∈ get_orphan_nodes (build_from_cards cards) ↔
      ∃ i, mapLookup (build_from_cards cards).node_indices id = some i ∧
        inDegree (build_from_cards cards).directed_graph i = 0 ∧
        outDegree (build_from_cards cards).directed_graph i = 0 := by
  unfold get_orphan_nodes
  constructor
  · intro hmem
    simp only [List.mem_map] at hmem
    obtain ⟨p, hp, hid⟩ := hmem
    rw [List.mem_filter] at hp
    obtain ⟨hp1, hp2⟩ := hp
    subst hid
    refine ⟨p.2, mem_mapEntries' _ _ hp1, ?_⟩
    simpa using hp2
  · rintro ⟨i, hl, h1, h2⟩
    simp only [List.mem_map]
    refine ⟨(id, i), ?_, rfl⟩
    rw [List.mem_filter]
    exact ⟨(mem_mapEntries _ _ _).mpr hl, by simp [h1, h2]⟩

theorem C5_witness :
    "c" ∈ get_orphan_nodes (build_from_cards
      [⟨"c", "C", [], "note", ["Nonexistent"]⟩]) :=
  (C5_orphans [⟨"c", "C", [], "note", ["Nonexistent"]⟩] "c").mpr
    ⟨0, by decide, by decide, by decide⟩

/-- C6 (amended): the node count of the built graph equals the number of
cards supplied — one petgraph node is added per card, so duplicate ids
produce duplicate nodes; when all ids are distinct this equals the number
of distinct ids, as the original claim states. -/
theorem C6_node_count (cards : List CardListItem) :
    (build_from_cards cards).directed_graph.nodes.length = cards.length ∧
    ((cards.map (·.id)).Nodup →
      (build_from_cards cards).directed_graph.nodes.length =
        (cards.map (·.id)).dedup.length) := by
  have h1 : (build_from_cards cards).directed_graph.nodes.length =
      cards.length := by
    rw [build_nodes, List.length_map]
  refine ⟨h1, fun hnd => ?_⟩
  rw [h1, List.dedup_eq_self.mpr hnd, List.length_map]

/-- C6 counterexample: two cards sharing the id `"a"` produce a graph with
`2` nodes, while the number of distinct card ids is `1` — the original
claim's equality fails. -/
theorem C6_counterexample :
    (build_from_cards dupIdCards).directed_graph.nodes.length = 2 ∧
    (dupIdCards.map (·.id)).dedup.length = 1 ∧
    (build_from_cards dupIdCards).directed_graph.nodes.length ≠
      (dupIdCards.map (·.id)).dedup.length := by
  refine ⟨?_, ?_, ?_⟩ <;> decide

theorem C6_witness :
    (build_from_cards demoCards).directed_graph.nodes.length =
      (demoCards.map (·.id)).dedup.length :=
  (C6_node_count demoCards).2 (by decide)

/-- C8: no edge produced by any of the three edge-construction paths is a
self-loop: the wholesale build, the standalone `compute_layout` graph, and
the per-card `update_card` path (which preserves self-loop freedom). -/
theorem C8_no_self_loops :
    (∀ (cards : List CardListItem),
      ∀ e ∈ (build_from_cards cards).directed_graph.edges, e.1 ≠ e.2) ∧
    (∀ (cards : List CardListItem),
      ∀ e ∈ (layoutGraph cards).edges, e.1 ≠ e.2) ∧
    (∀ (st : EngineState) (card_id : String) (links : List String)
      (title : String) (aliases : List String),
      (∀ e ∈ st.directed_graph.edges, e.1 ≠ e.2) →
      ∀ e ∈ (update_card st card_id links title aliases).directed_graph.edges,
        e.1 ≠ e.2) :=
  ⟨build_no_self_loop, layoutGraph_no_self_loop, update_card_no_self_loop⟩

theorem C8_witness : ((0, 1) : Nat × Nat).1 ≠ ((0, 1) : Nat × Nat).2 :=
  C8_no_self_loops.1 demoCards (0, 1) (by decide)

/-- C10: querying `get_backlinks` with a string that is not the id of any
node returns the empty vector without error, and the metadata lookup for
the unknown id falls back to an empty title and alias list. -/
theorem C10_unknown_backlinks (cards : List CardListItem) (qid : String)
    (h : qid ∉ cards.map (·.id)) :
    get_backlinks (build_from_cards cards) qid = [] ∧
    backlinkTargetMeta (build_from_cards cards) qid = ("", []) := by
  have hidx : mapLookup (build_from_cards cards).node_indices qid = none := by
    rw [build_node_indices, mapLookup_eq_none_iff, buildPass1_indices_keys,
      List.mem_reverse]
    exact h
  have hmeta : mapLookup (build_from_cards cards).card_meta qid = none := by
    rw [build_card_meta, mapLookup_eq_none_iff, buildPass1_meta_keys,
      List.mem_reverse]
    exact h
  constructor
  · unfold get_backlinks
    rw [hidx]
  · unfold backlinkTargetMeta
    rw [hmeta]

theorem C10_witness :
    get_backlinks (build_from_cards demoCards) "zzz" = [] ∧
    backlinkTargetMeta (build_from_cards demoCards) "zzz" = ("", []) :=
  C10_unknown_backlinks demoCards "zzz" (by decide)

/-! ### Backlinks -/

theorem mem_incomingEdges (g : DiGraphM) (j : Nat) (e : Nat × Nat) :
    e ∈ incomingEdges g j ↔ e ∈ g.edges ∧ e.2 = j := by
  simp [incomingEdges, List.mem_filter]

theorem build_indices_getD (cards : List CardListItem) (k : String) (i : Nat)
    (h : mapLookup (build_from_cards cards).node_indices k = some i) :
    i < cards.length ∧
    (build_from_cards cards).directed_graph.nodes.getD i "" = k := by
  rw [build_node_indices] at h
  have hinv := buildPass1_indices_inv cards _ (mapLookup_mem _ _ _ h)
  rw [build_nodes]
  simpa using hinv

theorem build_indices_lookup_of_mem (cards : List CardListItem) (k : String)
    (h : k ∈ cards.map (·.id)) :
    ∃ i, mapLookup (build_from_cards cards).node_indices k = some i := by
  rw [build_node_indices]
  have hs : (mapLookup (buildPass1 cards).node_indices k).isSome = true := by
    rw [mapLookup_isSome_iff, buildPass1_indices_keys, List.mem_reverse]
    exact h
  exact Option.isSome_iff_exists.mp hs

theorem build_meta_lookup_of_mem (cards : List CardListItem) (k : String)
    (h : k ∈ cards.map (·.id)) :
    ∃ m, mapLookup (build_from_cards cards).card_meta k = some m := by
  rw [build_card_meta]
  have hs : (mapLookup (buildPass1 cards).card_meta k).isSome = true := by
    rw [mapLookup_isSome_iff, buildPass1_meta_keys, List.mem_reverse]
    exact h
  exact Option.isSome_iff_exists.mp hs

theorem mem_get_backlinks (st : EngineState) (B : String)
    (entry : BacklinkInfo) :
    entry ∈ get_backlinks st B ↔
      ∃ j, mapLookup st.node_indices B = some j ∧
      ∃ e ∈ st.directed_graph.edges, e.2 = j ∧
      ∃ m, mapLookup st.card_meta
          (st.directed_graph.nodes.getD e.1 "") = some m ∧
        entry = ⟨st.directed_graph.nodes.getD e.1 "", m.title,
          m.card_type, none⟩ := by
  unfold get_backlinks
  cases hI : mapLookup st.node_indices B with
  | none => simp
  | some j =>
    simp only [List.mem_filterMap, Option.some.injEq]
    constructor
    · rintro ⟨e, he, hf⟩
      rw [mem_incomingEdges] at he
      obtain ⟨m, hm, hentry⟩ := Option.map_eq_some'.mp hf
      exact ⟨j, rfl, e, he.1, he.2, m, hm, hentry.symm⟩
    · rintro ⟨j', hj', e, he, he2, m, hm, hentry⟩
      subst hj'
      refine ⟨e, (mem_incomingEdges _ _ _).mpr ⟨he, he2⟩, ?_⟩
      rw [hm]
      simp [hentry]

/-- C4: `get_backlinks(B)` contains an entry with id `A` exactly when the
built graph has the resolved directed edge from `A`'s node into `B`'s node
— that is, some card with id `A` has a link reference resolving to `B`,
and `A ≠ B`; each entry carries the source card's cached title and card
type, and nothing beyond direct (one-hop) incoming edges is reported. -/
theorem C4_backlinks (cards : List CardListItem) (A B : String) :
    ((∃ entry ∈ get_backlinks (build_from_cards cards) B, entry.id = A) ↔
      (A ≠ B ∧ ∃ cA ∈ cards, cA.id = A ∧ ∃ l ∈ cA.links,
        resolveTarget (build_from_cards cards).node_indices
          (build_from_cards cards).title_to_id l = some B)) ∧
    (∀ entry ∈ get_backlinks (build_from_cards cards) B,
      entry.context = none ∧
      ∃ c ∈ cards, c.id = entry.id ∧ entry.title = c.title ∧
        entry.card_type = c.card_type) := by
  have hres_eq : (build_from_cards cards).node_indices =
      (buildPass1 cards).node_indices := build_node_indices cards
  have htm_eq : (build_from_cards cards).title_to_id =
      (buildPass1 cards).title_to_id := build_title_to_id cards
  constructor
  · constructor
    · rintro ⟨entry, hentry, hA⟩
      rw [mem_get_backlinks] at hentry
      obtain ⟨j, hj, e, he, he2, m, hm, hentryEq⟩ := hentry
      have hsrc : entry.id = (build_from_cards cards).directed_graph.nodes.getD e.1 "" := by
        rw [hentryEq]
      rw [build_edges_mem_iff] at he
      obtain ⟨c, hc, s, hs, l, hl, h1, tid, hres, hL, hne⟩ := he
      have hcid : (build_from_cards cards).directed_graph.nodes.getD e.1 "" = c.id := by
        have := build_indices_getD cards c.id s (by rw [hres_eq]; exact hs)
        rw [h1]
        exact this.2
      have htid : tid = B := by
        have h1' := build_indices_getD cards tid e.2 (by rw [hres_eq]; exact hL)
        have h2' := build_indices_getD cards B j hj
        rw [he2] at h1'
        rw [← h1'.2, h2'.2]
      have hAc : c.id = A := by
        rw [← hcid]
        rw [← hsrc]
        exact hA
      have hAB : A ≠ B := by
        intro hEq
        apply hne
        have hjA : mapLookup (build_from_cards cards).node_indices A =
            some e.1 := by
          rw [hres_eq, ← hAc, h1]
          exact hs
        rw [hEq, hj] at hjA
        injection hjA with hje
        rw [← h1, ← hje, he2]
      refine ⟨hAB, c, hc, hAc, l, hl, ?_⟩
      rw [hres_eq, htm_eq] at *
      rw [htid] at hres
      exact hres
    · rintro ⟨hAB, cA, hcA, hidA, l, hl, hres⟩
      have hAmem : A ∈ cards.map (·.id) := by
        rw [← hidA]
        exact List.mem_map_of_mem _ hcA
      obtain ⟨i, hi⟩ := build_indices_lookup_of_mem cards A hAmem
      have hBmem : B ∈ cards.map (·.id) := by
        unfold resolveTarget at hres
        by_cases hcl : mapContains (build_from_cards cards).node_indices l = true
        · rw [if_pos hcl] at hres
          injection hres with hlB
          subst hlB
          rw [build_node_indices] at hcl
          exact (buildPass1_indices_contains_iff cards _).mp hcl
        · rw [if_neg hcl] at hres
          rw [htm_eq] at hres
          have hval := buildPass1_title_values cards _
            (mapLookup_mem _ _ _ hres)
          rw [buildPass1_indices_keys, List.mem_reverse] at hval
          exact hval
      obtain ⟨j, hj⟩ := build_indices_lookup_of_mem cards B hBmem
      have hij : i ≠ j := by
        intro hEq
        apply hAB
        have h1' := build_indices_getD cards A i hi
        have h2' := build_indices_getD cards B j hj
        rw [← h1'.2, hEq, h2'.2]
      have hedge : (i, j) ∈ (build_from_cards cards).directed_graph.edges := by
        rw [build_edges_mem_iff]
        refine ⟨cA, hcA, i, ?_, l, hl, rfl, B, ?_, ?_, hij⟩
        · rw [← hres_eq, hidA]
          exact hi
        · rw [← hres_eq, ← htm_eq]
          exact hres
        · rw [← hres_eq]
          exact hj
      have hgetD : (build_from_cards cards).directed_graph.nodes.getD i "" = A :=
        (build_indices_getD cards A i hi).2
      obtain ⟨m, hm⟩ := build_meta_lookup_of_mem cards A hAmem
      refine ⟨⟨A, m.title, m.card_type, none⟩, ?_, rfl⟩
      rw [mem_get_backlinks]
      exact ⟨j, hj, (i, j), hedge, rfl, m, by rw [hgetD]; exact hm, by rw [hgetD]⟩
  · intro entry hentry
    rw [mem_get_backlinks] at hentry
    obtain ⟨j, hj, e, he, he2, m, hm, hentryEq⟩ := hentry
    have hmm := mapLookup_mem _ _ _ hm
    rw [build_card_meta] at hmm
    obtain ⟨c, hc, hcid, hcmeta⟩ := buildPass1_meta_content cards _ hmm
    simp only at hcid hcmeta
    refine ⟨by rw [hentryEq], c, hc, ?_, ?_, ?_⟩
    · rw [hentryEq]
      exact hcid
    · rw [hentryEq, hcmeta]
    · rw [hentryEq, hcmeta]

theorem C4_witness :
    ∃ entry ∈ get_backlinks (build_from_cards demoCards) "a",
      entry.id = "b" :=
  (C4_backlinks demoCards "b" "a").1.mpr
    ⟨by decide, ⟨"b", "B", ["Bee"], "note", ["a"]⟩, by decide, rfl, "a",
      by decide, by decide⟩

/-! ### Sorting -/

theorem insertSorted_perm {α : Type} (le : α → α → Bool) (x : α)
    (l : List α) : (insertSorted le x l).Perm (x :: l) := by
  induction l with
  | nil => exact List.Perm.refl _
  | cons y ys ih =>
    unfold insertSorted
    by_cases h : le x y
    · rw [if_pos h]
    · rw [if_neg h]
      exact List.Perm.trans (List.Perm.cons y ih) (List.Perm.swap x y ys)

theorem sortBy_perm {α : Type} (le : α → α → Bool) (l : List α) :
    (sortBy le l).Perm l := by
  induction l with
  | nil => exact List.Perm.refl _
  | cons x xs ih =>
    show (insertSorted le x (sortBy le xs)).Perm (x :: xs)
    exact (insertSorted_perm le x _).trans (List.Perm.cons x ih)

theorem mem_insertSorted {α : Type} (le : α → α → Bool) (x a : α)
    (l : List α) : a ∈ insertSorted le x l ↔ a = x ∨ a ∈ l := by
  rw [(insertSorted_perm le x l).mem_iff]
  simp

theorem insertSorted_pairwise {α : Type} (le : α → α → Bool)
    (htot : ∀ a b, le a b = true ∨ le b a = true)
    (htrans : ∀ a b c, le a b = true → le b c = true → le a c = true)
    (x : α) (l : List α) (h : l.Pairwise (fun a b => le a b = true)) :
    (insertSorted le x l).Pairwise (fun a b => le a b = true) := by
  induction l with
  | nil => simp [insertSorted]
  | cons y ys ih =>
    rw [List.pairwise_cons] at h
    unfold insertSorted
    by_cases hxy : le x y
    · rw [if_pos hxy]
      rw [List.pairwise_cons]
      constructor
      · intro b hb
        rcases List.mem_cons.mp hb with hb | hb
        · rw [hb]
          exact hxy
        · exact htrans x y b hxy (h.1 b hb)
      · rw [List.pairwise_cons]
        exact h
    · rw [if_neg hxy]
      rw [List.pairwise_cons]
      constructor
      · intro b hb
        rw [mem_insertSorted] at hb
        rcases hb with hb | hb
        · rw [hb]
          rcases htot x y with hc | hc
          · exact absurd hc hxy
          · exact hc
        · exact h.1 b hb
      · exact ih h.2

theorem sortBy_pairwise {α : Type} (le : α → α → Bool)
    (htot : ∀ a b, le a b = true ∨ le b a = true)
    (htrans : ∀ a b c, le a b = true → le b c = true → le a c = true)
    (l : List α) :
    (sortBy le l).Pairwise (fun a b => le a b = true) := by
  induction l with
  | nil => exact List.Pairwise.nil
  | cons x xs ih =>
    exact insertSorted_pairwise le htot htrans x (sortBy le xs) ih

/-! ### PageRank -/

theorem outDegree_pos_of_mem (g : DiGraphM) (e : Nat × Nat)
    (he : e ∈ g.edges) : 0 < outDegree g e.1 := by
  unfold outDegree
  have hmem : e ∈ g.edges.filter (fun x => x.1 == e.1) := by
    rw [List.mem_filter]
    exact ⟨he, by simp⟩
  exact List.length_pos.mpr (List.ne_nil_of_mem hmem)

theorem incomingEdges_nodup (g : DiGraphM) (v : Nat) (h : g.edges.Nodup) :
    (incomingEdges g v).Nodup := h.filter _

theorem incoming_sources_nodup (g : DiGraphM) (v : Nat)
    (h : g.edges.Nodup) : ((incomingEdges g v).map (·.1)).Nodup := by
  refine List.Nodup.map_on ?_ (incomingEdges_nodup g v h)
  intro x hx y hy hxy
  rw [mem_incomingEdges] at hx hy
  exact Prod.ext hxy (hx.2.trans hy.2.symm)

theorem incoming_sum_eq (g : DiGraphM) (v : Nat) (h : Nat → ℚ)
    (hN : g.edges.Nodup) (hWF : ∀ e ∈ g.edges, e.1 < g.nodes.length) :
    ((incomingEdges g v).map (fun e => h e.1)).sum =
      ∑ u in Finset.range g.nodes.length,
        (if (u, v) ∈ g.edges then h u else 0) := by
  rw [← Finset.sum_filter]
  have hset : (Finset.range g.nodes.length).filter
      (fun u => (u, v) ∈ g.edges) =
      ((incomingEdges g v).map (·.1)).toFinset := by
    apply Finset.ext
    intro u
    simp only [Finset.mem_filter, Finset.mem_range, List.mem_toFinset,
      List.mem_map]
    constructor
    · rintro ⟨hu, hmem⟩
      exact ⟨(u, v), (mem_incomingEdges g v _).mpr ⟨hmem, rfl⟩, rfl⟩
    · rintro ⟨e, he, he1⟩
      rw [mem_incomingEdges] at he
      subst he1
      refine ⟨hWF e he.1, ?_⟩
      have heq : e = (e.1, v) := Prod.ext rfl he.2
      rw [← heq]
      exact he.1
  rw [hset, List.sum_toFinset _ (incoming_sources_nodup g v hN),
    List.map_map]
  rfl

theorem pagerankStep_eq_spec (g : DiGraphM) (d : ℚ) (ranks : Nat → ℚ)
    (hN : g.edges.Nodup) (hWF : ∀ e ∈ g.edges, e.1 < g.nodes.length)
    (v : Nat) :
    pagerankStep g d ranks v = pagerankSpecStep g d ranks v := by
  show (1 - d) / (g.nodes.length : ℚ) +
      d * ((incomingEdges g v).map (fun e =>
        if outDegree g e.1 > 0 then ranks e.1 / (outDegree g e.1 : ℚ)
        else 0)).sum = _
  have hmap : (incomingEdges g v).map (fun e =>
      if outDegree g e.1 > 0 then ranks e.1 / (outDegree g e.1 : ℚ) else 0) =
      (incomingEdges g v).map (fun e => ranks e.1 / (outDegree g e.1 : ℚ)) := by
    apply List.map_congr_left
    intro e he
    rw [mem_incomingEdges] at he
    rw [if_pos (outDegree_pos_of_mem g e he.1)]
  rw [hmap]
  show (1 - d) / (g.nodes.length : ℚ) +
    d * ((incomingEdges g v).map (fun e =>
      (fun u => ranks u / (outDegree g u : ℚ)) e.1)).sum = _
  rw [incoming_sum_eq g v (fun u => ranks u / (outDegree g u : ℚ)) hN hWF]
  rfl

/-- Changing the ranks of nodes with out-degree zero does not change the
result of a PageRank update: dangling nodes contribute nothing to any
node's rank sum. -/
theorem pagerankStep_dangling (g : DiGraphM) (d : ℚ) (r r' : Nat → ℚ)
    (h : ∀ u, outDegree g u ≠ 0 → r u = r' u) (v : Nat) :
    pagerankStep g d r v = pagerankStep g d r' v := by
  show (1 - d) / (g.nodes.length : ℚ) + d * _ =
    (1 - d) / (g.nodes.length : ℚ) + d * _
  congr 1
  congr 1
  refine congrArg List.sum (List.map_congr_left ?_)
  intro e he
  rw [mem_incomingEdges] at he
  have hpos := outDegree_pos_of_mem g e he.1
  rw [if_pos hpos, if_pos hpos, h e.1 (Nat.pos_iff_ne_zero.mp hpos)]

theorem pagerankStep_no_edges (g : DiGraphM) (d : ℚ) (r : Nat → ℚ)
    (h : g.edges = []) (v : Nat) :
    pagerankStep g d r v = (1 - d) / (g.nodes.length : ℚ) := by
  have hinc : incomingEdges g v = [] := by
    unfold incomingEdges
    rw [h]
    rfl
  show (1 - d) / (g.nodes.length : ℚ) + d * ((incomingEdges g v).map _).sum = _
  rw [hinc]
  simp

theorem outgoing_targets_nodup (g : DiGraphM) (u : Nat)
    (h : g.edges.Nodup) :
    ((g.edges.filter (fun e => e.1 == u)).map (·.2)).Nodup := by
  refine List.Nodup.map_on ?_ (h.filter _)
  intro x hx y hy hxy
  rw [List.mem_filter] at hx hy
  have hx1 : x.1 = u := by simpa using hx.2
  have hy1 : y.1 = u := by simpa using hy.2
  exact Prod.ext (hx1.trans hy1.symm) hxy

theorem outDegree_eq_card (g : DiGraphM) (u : Nat) (hN : g.edges.Nodup)
    (hWF2 : ∀ e ∈ g.edges, e.2 < g.nodes.length) :
    ((Finset.range g.nodes.length).filter
      (fun v => (u, v) ∈ g.edges)).card = outDegree g u := by
  have hset : (Finset.range g.nodes.length).filter
      (fun v => (u, v) ∈ g.edges) =
      ((g.edges.filter (fun e => e.1 == u)).map (·.2)).toFinset := by
    apply Finset.ext
    intro v
    simp only [Finset.mem_filter, Finset.mem_range, List.mem_toFinset,
      List.mem_map]
    constructor
    · rintro ⟨hv, hmem⟩
      refine ⟨(u, v), ?_, rfl⟩
      rw [List.mem_filter]
      exact ⟨hmem, by simp⟩
    · rintro ⟨e, he, he2⟩
      rw [List.mem_filter] at he
      have he1 : e.1 = u := by simpa using he.2
      subst he2
      refine ⟨hWF2 e he.1, ?_⟩
      have heq : e = (u, e.2) := Prod.ext he1 rfl
      rw [← heq]
      exact he.1
  rw [hset, List.toFinset_card_of_nodup (outgoing_targets_nodup g u hN),
    List.length_map]
  rfl

/-- Exact mass conservation of the embedded PageRank: on a graph where
every node has at least one outgoing edge, the rank sum stays exactly `1`
after any number of iterations. -/
theorem pagerank_sum_conserved (g : DiGraphM) (d : ℚ) (k : Nat)
    (hN : g.edges.Nodup) (hWF1 : ∀ e ∈ g.edges, e.1 < g.nodes.length)
    (hWF2 : ∀ e ∈ g.edges, e.2 < g.nodes.length)
    (hn : 0 < g.nodes.length)
    (hd : ∀ u, u < g.nodes.length → outDegree g u ≠ 0) :
    ∑ v in Finset.range g.nodes.length, pagerankRanks g d k v = 1 := by
  have hnq : (g.nodes.length : ℚ) ≠ 0 := by
    exact_mod_cast hn.ne'
  induction k with
  | zero =>
    show ∑ _v in Finset.range g.nodes.length,
      (1 / (g.nodes.length : ℚ)) = 1
    rw [Finset.sum_const, Finset.card_range, nsmul_eq_mul]
    field_simp
  | succ k ih =>
    have hstep : ∀ v, pagerankRanks g d (k + 1) v =
        pagerankSpecStep g d (pagerankRanks g d k) v := by
      intro v
      show (pagerankStep g d)^[k + 1] _ v = _
      rw [Function.iterate_succ_apply']
      exact pagerankStep_eq_spec g d _ hN hWF1 v
    have h1 : ∑ v in Finset.range g.nodes.length,
        pagerankRanks g d (k + 1) v =
        ∑ v in Finset.range g.nodes.length,
          ((1 - d) / (g.nodes.length : ℚ) +
            d * ∑ u in Finset.range g.nodes.length,
              (if (u, v) ∈ g.edges then
                pagerankRanks g d k u / (outDegree g u : ℚ) else 0)) :=
      Finset.sum_congr rfl (fun v _ => by rw [hstep v]; rfl)
    rw [h1, Finset.sum_add_distrib, Finset.sum_const, Finset.card_range,
      nsmul_eq_mul, ← Finset.mul_sum, Finset.sum_comm]
    have h2 : ∀ u ∈ Finset.range g.nodes.length,
        ∑ v in Finset.range g.nodes.length,
          (if (u, v) ∈ g.edges then
            pagerankRanks g d k u / (outDegree g u : ℚ) else 0) =
        pagerankRanks g d k u := by
      intro u hu
      rw [← Finset.sum_filter, Finset.sum_const,
        outDegree_eq_card g u hN hWF2, nsmul_eq_mul]
      have hdu : (outDegree g u : ℚ) ≠ 0 := by
        rw [Finset.mem_range] at hu
        exact_mod_cast hd u hu
      field_simp
    rw [Finset.sum_congr rfl h2, ih]
    field_simp

/-- C2: the embedded `compute_pagerank` starts every node at `1/N`, applies
the update `rank[v] = (1-d)/N + d * Σ(rank[u]/outdegree(u))` over incoming
edges exactly once per iteration with no convergence check, nodes with zero
out-degree contribute nothing to any rank sum, and the analytics pipeline
(`get_importance_ranking`) invokes it with damping `0.85` and `20`
iterations. -/
theorem C2_pagerank (cards : List CardListItem) (d : ℚ) (k : Nat) (v : Nat)
    (r r' : Nat → ℚ) :
    (pagerankRanks (build_from_cards cards).directed_graph d 0 v =
      1 / ((build_from_cards cards).directed_graph.nodes.length : ℚ)) ∧
    (pagerankRanks (build_from_cards cards).directed_graph d (k + 1) v =
      pagerankSpecStep (build_from_cards cards).directed_graph d
        (pagerankRanks (build_from_cards cards).directed_graph d k) v) ∧
    ((∀ u, outDegree (build_from_cards cards).directed_graph u ≠ 0 →
        r u = r' u) →
      pagerankStep (build_from_cards cards).directed_graph d r v =
        pagerankStep (build_from_cards cards).directed_graph d r' v) ∧
    (∀ (st : EngineState) (limit : Nat) (ci : CardImportance),
      ci ∈ get_importance_ranking st limit →
      ci.score = (mapLookup (compute_pagerank st (17/20) 20) ci.id).getD 0) := by
  have hwf : ∀ e ∈ (build_from_cards cards).directed_graph.edges,
      e.1 < (build_from_cards cards).directed_graph.nodes.length := by
    intro e he
    have h := build_edges_wf cards e he
    rw [build_nodes, List.length_map]
    exact h.1
  refine ⟨rfl, ?_, ?_, ?_⟩
  · show (pagerankStep (build_from_cards cards).directed_graph d)^[k + 1] _ v = _
    rw [Function.iterate_succ_apply']
    exact pagerankStep_eq_spec _ d _ (build_edges_nodup cards) hwf v
  · intro h
    exact pagerankStep_dangling _ d r r' h v
  · intro st limit ci hci
    unfold get_importance_ranking at hci
    have hmem := List.take_subset limit _ hci
    rw [(sortBy_perm _ _).mem_iff] at hmem
    rw [List.mem_filterMap] at hmem
    obtain ⟨p, _, hp⟩ := hmem
    obtain ⟨m, _, hmk⟩ := Option.map_eq_some'.mp hp
    rw [← hmk]

theorem C2_witness :
    pagerankStep (build_from_cards demoCards).directed_graph (17/20)
      (fun u => if u = 5 then 7 else 0) 0 =
    pagerankStep (build_from_cards demoCards).directed_graph (17/20)
      (fun _ => 0) 0 :=
  (C2_pagerank demoCards (17/20) 0 0 (fun u => if u = 5 then 7 else 0)
    (fun _ => 0)).2.2.1 (by
      intro u hu
      by_cases h5 : u = 5
      · subst h5
        exact absurd (by decide) hu
      · simp [h5])

/-- C7 (amended): in exact arithmetic the PageRank mass is conserved —
the rank sum is exactly `1` after any number of iterations — provided
every node of the built graph has at least one outgoing edge.  When some
node has out-degree zero the mass leaks (no dangling-mass redistribution):
the original claim fails already on a single isolated card, whose rank sum
after 20 iterations is `0.15`. -/
theorem C7_pagerank_mass (cards : List CardListItem) (k : Nat)
    (hn : 0 < (build_from_cards cards).directed_graph.nodes.length)
    (hd : ∀ u, u < (build_from_cards cards).directed_graph.nodes.length →
      outDegree (build_from_cards cards).directed_graph u ≠ 0) :
    ∑ v in Finset.range (build_from_cards cards).directed_graph.nodes.length,
      pagerankRanks (build_from_cards cards).directed_graph (17/20) k v = 1 := by
  have hwf : ∀ e ∈ (build_from_cards cards).directed_graph.edges,
      e.1 < (build_from_cards cards).directed_graph.nodes.length ∧
      e.2 < (build_from_cards cards).directed_graph.nodes.length := by
    intro e he
    have h := build_edges_wf cards e he
    rw [build_nodes, List.length_map]
    exact h
  exact pagerank_sum_conserved _ (17/20) k (build_edges_nodup cards)
    (fun e he => (hwf e he).1) (fun e he => (hwf e he).2) hn hd

theorem C7_witness :
    ∑ v in Finset.range
        (build_from_cards demoCards).directed_graph.nodes.length,
      pagerankRanks (build_from_cards demoCards).directed_graph
        (17/20) 20 v = 1 :=
  C7_pagerank_mass demoCards 20 (by decide) (by decide)

/-- C7 counterexample: a single card with no links is a dangling node; its
PageRank after 20 iterations (damping `0.85`) is `3/20 = 0.15`, so the total
mass is `0.15`, not approximately `1`. -/
theorem C7_counterexample :
    (∑ v in Finset.range
        (build_from_cards singleCard).directed_graph.nodes.length,
      pagerankRanks (build_from_cards singleCard).directed_graph
        (17/20) 20 v) = 3/20 ∧ ((3 : ℚ)/20) ≠ 1 := by
  have hg : (build_from_cards singleCard).directed_graph =
      ⟨["c"], []⟩ := by decide
  constructor
  · rw [hg]
    have hlen : (DiGraphM.mk ["c"] []).nodes.length = 1 := rfl
    rw [hlen, Finset.sum_range_one]
    unfold pagerankRanks
    rw [Function.iterate_succ_apply']
    rw [pagerankStep_no_edges _ _ _ rfl 0]
    norm_num
  · norm_num

/-! ### Reachability -/

theorem mem_succList (g : DiGraphM) (u b : Nat) :
    b ∈ succList g u ↔ (u, b) ∈ g.edges := by
  unfold succList
  simp only [List.mem_map, List.mem_filter]
  constructor
  · rintro ⟨e, ⟨he, he1⟩, he2⟩
    have h1 : e.1 = u := by simpa using he1
    have heq : e = (u, b) := Prod.ext h1 he2
    rw [← heq]
    exact he
  · intro h
    exact ⟨(u, b), ⟨h, by simp⟩, rfl⟩

theorem mem_expandR (g : DiGraphM) (s : List Nat) (x : Nat) :
    x ∈ expandR g s ↔ x ∈ s ∨ ∃ u ∈ s, (u, x) ∈ g.edges := by
  unfold expandR
  rw [List.mem_dedup, List.mem_append, List.mem_flatMap]
  simp only [mem_succList]

theorem subset_expandR (g : DiGraphM) (s : List Nat) :
    ∀ x ∈ s, x ∈ expandR g s :=
  fun x hx => (mem_expandR g s x).mpr (Or.inl hx)

theorem expandR_congr (g : DiGraphM) (s t : List Nat)
    (h : ∀ x, x ∈ s ↔ x ∈ t) :
    ∀ x, x ∈ expandR g s ↔ x ∈ expandR g t := by
  intro x
  rw [mem_expandR, mem_expandR]
  constructor
  · rintro (hx | ⟨u, hu, he⟩)
    · exact Or.inl ((h x).mp hx)
    · exact Or.inr ⟨u, (h u).mp hu, he⟩
  · rintro (hx | ⟨u, hu, he⟩)
    · exact Or.inl ((h x).mpr hx)
    · exact Or.inr ⟨u, (h u).mpr hu, he⟩

theorem iterate_expandR_mono (g : DiGraphM) (a : Nat) (k : Nat) :
    ∀ x ∈ (expandR g)^[k] [a], x ∈ (expandR g)^[k + 1] [a] := by
  intro x hx
  rw [Function.iterate_succ_apply']
  exact subset_expandR _ _ x hx

theorem self_mem_iterate_expandR (g : DiGraphM) (a : Nat) (k : Nat) :
    a ∈ (expandR g)^[k] [a] := by
  induction k with
  | zero => exact List.mem_singleton_self a
  | succ k ih => exact iterate_expandR_mono g a k a ih

theorem iterate_expandR_sound (g : DiGraphM) (a : Nat) (k : Nat) :
    ∀ x ∈ (expandR g)^[k] [a], Reaches g a x := by
  induction k with
  | zero =>
    intro x hx
    rw [Function.iterate_zero_apply, List.mem_singleton] at hx
    rw [hx]
    exact Relation.ReflTransGen.refl
  | succ k ih =>
    intro x hx
    rw [Function.iterate_succ_apply', mem_expandR] at hx
    rcases hx with hx | ⟨u, hu, hedge⟩
    · exact ih x hx
    · exact Relation.ReflTransGen.tail (ih u hu) hedge

theorem iterate_expandR_bounded (g : DiGraphM) (a : Nat)
    (ha : a < g.nodes.length)
    (hWF2 : ∀ e ∈ g.edges, e.2 < g.nodes.length) (k : Nat) :
    ∀ x ∈ (expandR g)^[k] [a], x < g.nodes.length := by
  induction k with
  | zero =>
    intro x hx
    rw [Function.iterate_zero_apply, List.mem_singleton] at hx
    rw [hx]
    exact ha
  | succ k ih =>
    intro x hx
    rw [Function.iterate_succ_apply', mem_expandR] at hx
    rcases hx with hx | ⟨u, _, hedge⟩
    · exact ih x hx
    · exact hWF2 (u, x) hedge

theorem iterate_expandR_fix_propagates (g : DiGraphM) (a : Nat) (k : Nat)
    (hfix : ∀ x, x ∈ (expandR g)^[k + 1] [a] ↔ x ∈ (expandR g)^[k] [a]) :
    ∀ m, k ≤ m →
      ∀ x, x ∈ (expandR g)^[m] [a] ↔ x ∈ (expandR g)^[k] [a] := by
  intro m
  induction m with
  | zero =>
    intro hm x
    rw [Nat.le_zero.mp hm]
  | succ m ih =>
    intro hm x
    rcases Nat.lt_or_ge k (m + 1) with hlt | hge
    · have hkm : k ≤ m := Nat.lt_succ_iff.mp hlt
      have hstep : ∀ y, y ∈ (expandR g)^[m + 1] [a] ↔
          y ∈ (expandR g)^[k + 1] [a] := by
        intro y
        rw [Function.iterate_succ_apply', Function.iterate_succ_apply']
        exact expandR_congr g _ _ (ih hkm) y
      rw [hstep x, hfix x]
    · have : k = m + 1 := Nat.le_antisymm hm hge
      rw [this]

theorem iterate_expandR_card_grow (g : DiGraphM) (a : Nat) (k : Nat)
    (hne : ¬ ∀ x, x ∈ (expandR g)^[k + 1] [a] ↔ x ∈ (expandR g)^[k] [a]) :
    ((expandR g)^[k] [a]).toFinset.card <
      ((expandR g)^[k + 1] [a]).toFinset.card := by
  apply Finset.card_lt_card
  rw [Finset.ssubset_iff_of_subset]
  · obtain ⟨x, hx⟩ := not_forall.mp hne
    have hnew : x ∈ (expandR g)^[k + 1] [a] ∧ x ∉ (expandR g)^[k] [a] := by
      by_cases hk1 : x ∈ (expandR g)^[k] [a]
      · exact absurd (Iff.intro (fun _ => hk1)
          (fun h => iterate_expandR_mono g a k x h)) hx
      · by_cases hk2 : x ∈ (expandR g)^[k + 1] [a]
        · exact ⟨hk2, hk1⟩
        · exact absurd (Iff.intro (fun h => absurd h hk2)
            (fun h => absurd h hk1)) hx
    exact ⟨x, List.mem_toFinset.mpr hnew.1, fun hc =>
      hnew.2 (List.mem_toFinset.mp hc)⟩
  · intro x hx
    rw [List.mem_toFinset] at hx ⊢
    exact iterate_expandR_mono g a k x hx

theorem reachSet_closed (g : DiGraphM) (a : Nat) (ha : a < g.nodes.length)
    (hWF2 : ∀ e ∈ g.edges, e.2 < g.nodes.length) :
    ∀ x, x ∈ expandR g (reachSet g a) ↔ x ∈ reachSet g a := by
  have hbound : ∀ k, ((expandR g)^[k] [a]).toFinset.card ≤
      g.nodes.length := by
    intro k
    have hsub : ((expandR g)^[k] [a]).toFinset ⊆
        Finset.range g.nodes.length := by
      intro x hx
      rw [List.mem_toFinset] at hx
      rw [Finset.mem_range]
      exact iterate_expandR_bounded g a ha hWF2 k x hx
    calc ((expandR g)^[k] [a]).toFinset.card
        ≤ (Finset.range g.nodes.length).card := Finset.card_le_card hsub
      _ = g.nodes.length := Finset.card_range _
  by_cases hex : ∃ k, k < g.nodes.length ∧
      ∀ x, x ∈ (expandR g)^[k + 1] [a] ↔ x ∈ (expandR g)^[k] [a]
  · obtain ⟨k, hk, hfix⟩ := hex
    intro x
    have hn := iterate_expandR_fix_propagates g a k hfix
      g.nodes.length (Nat.le_of_lt hk) x
    have hn1 := iterate_expandR_fix_propagates g a k hfix
      (g.nodes.length + 1) (Nat.le_succ_of_le (Nat.le_of_lt hk)) x
    have hstep : x ∈ expandR g (reachSet g a) ↔
        x ∈ (expandR g)^[g.nodes.length + 1] [a] := by
      rw [Function.iterate_succ_apply']
      exact Iff.rfl
    rw [hstep, hn1, ← hn]
    exact Iff.rfl
  · exfalso
    have hnofix : ∀ k, k < g.nodes.length →
        ¬ ∀ x, x ∈ (expandR g)^[k + 1] [a] ↔ x ∈ (expandR g)^[k] [a] := by
      intro k hk hall
      exact hex ⟨k, hk, hall⟩
    have hge : ∀ k, k ≤ g.nodes.length →
        k + 1 ≤ ((expandR g)^[k] [a]).toFinset.card := by
      intro k
      induction k with
      | zero =>
        intro _
        have : a ∈ ((expandR g)^[0] [a]).toFinset := by
          rw [List.mem_toFinset]
          exact self_mem_iterate_expandR g a 0
        have := Finset.card_pos.mpr ⟨a, this⟩
        omega
      | succ k ih =>
        intro hk1
        have hk : k < g.nodes.length := Nat.lt_of_succ_le hk1
        have h1 := iterate_expandR_card_grow g a k (hnofix k hk)
        have h2 := ih (Nat.le_of_lt hk)
        omega
    have h1 := hge g.nodes.length le_rfl
    have h2 := hbound g.nodes.length
    omega

theorem reaches_mem_reachSet (g : DiGraphM) (a b : Nat)
    (ha : a < g.nodes.length)
    (hWF2 : ∀ e ∈ g.edges, e.2 < g.nodes.length)
    (h : Reaches g a b) : b ∈ reachSet g a := by
  induction h with
  | refl => exact self_mem_iterate_expandR g a _
  | tail _ hedge ih =>
    refine (reachSet_closed g a ha hWF2 _).mp ?_
    rw [mem_expandR]
    exact Or.inr ⟨_, ih, hedge⟩

theorem reachableB_iff (g : DiGraphM) (a b : Nat)
    (ha : a < g.nodes.length)
    (hWF2 : ∀ e ∈ g.edges, e.2 < g.nodes.length) :
    reachableB g a b = true ↔ Reaches g a b := by
  have hBool : reachableB g a b = true ↔ b ∈ reachSet g a := by
    unfold reachableB
    simp
  rw [hBool]
  constructor
  · intro h
    exact iterate_expandR_sound g a _ b h
  · intro h
    exact reaches_mem_reachSet g a b ha hWF2 h

/-! ### Strongly connected components -/

theorem reaches_lt (g : DiGraphM) (a b : Nat) (ha : a < g.nodes.length)
    (hWF2 : ∀ e ∈ g.edges, e.2 < g.nodes.length) (h : Reaches g a b) :
    b < g.nodes.length := by
  induction h with
  | refl => exact ha
  | tail _ hedge _ => exact hWF2 _ hedge

theorem mutualReach_refl (g : DiGraphM) (v : Nat) :
    mutualReach g v v = true := by
  unfold mutualReach
  have h : reachableB g v v = true := by
    unfold reachableB
    simp only [decide_eq_true_eq]
    exact self_mem_iterate_expandR g v _
  rw [h]
  rfl

theorem mutualReach_symm (g : DiGraphM) (a b : Nat) :
    mutualReach g a b = mutualReach g b a := by
  unfold mutualReach
  exact Bool.and_comm _ _

theorem mutualReach_iff (g : DiGraphM) (a b : Nat)
    (ha : a < g.nodes.length)
    (hWF2 : ∀ e ∈ g.edges, e.2 < g.nodes.length) :
    mutualReach g a b = true ↔ (Reaches g a b ∧ Reaches g b a) := by
  unfold mutualReach
  rw [Bool.and_eq_true]
  constructor
  · rintro ⟨h1, h2⟩
    have hab := (reachableB_iff g a b ha hWF2).mp h1
    have hb : b < g.nodes.length := reaches_lt g a b ha hWF2 hab
    exact ⟨hab, (reachableB_iff g b a hb hWF2).mp h2⟩
  · rintro ⟨h1, h2⟩
    have hb : b < g.nodes.length := reaches_lt g a b ha hWF2 h1
    exact ⟨(reachableB_iff g a b ha hWF2).mpr h1,
      (reachableB_iff g b a hb hWF2).mpr h2⟩

theorem mutualReach_trans (g : DiGraphM) (a b c : Nat)
    (ha : a < g.nodes.length)
    (hWF2 : ∀ e ∈ g.edges, e.2 < g.nodes.length)
    (h1 : mutualReach g a b = true) (h2 : mutualReach g b c = true) :
    mutualReach g a c = true := by
  rw [mutualReach_iff g a b ha hWF2] at h1
  have hb : b < g.nodes.length := reaches_lt g a b ha hWF2 h1.1
  rw [mutualReach_iff g b c hb hWF2] at h2
  rw [mutualReach_iff g a c ha hWF2]
  exact ⟨h1.1.trans h2.1, h2.2.trans h1.2⟩

theorem mem_sccClass (g : DiGraphM) (v w : Nat) :
    w ∈ sccClass g v ↔ w < g.nodes.length ∧ mutualReach g v w = true := by
  unfold sccClass
  rw [List.mem_filter, List.mem_range]

theorem self_mem_sccClass (g : DiGraphM) (v : Nat)
    (hv : v < g.nodes.length) : v ∈ sccClass g v :=
  (mem_sccClass g v v).mpr ⟨hv, mutualReach_refl g v⟩

theorem sccClass_nodup (g : DiGraphM) (v : Nat) : (sccClass g v).Nodup :=
  (List.nodup_range _).filter _

theorem sccClass_congr (g : DiGraphM) (u v : Nat)
    (hu : u < g.nodes.length)
    (hWF2 : ∀ e ∈ g.edges, e.2 < g.nodes.length)
    (h : mutualReach g u v = true) : sccClass g u = sccClass g v := by
  have hv : v < g.nodes.length :=
    reaches_lt g u v hu hWF2 ((mutualReach_iff g u v hu hWF2).mp h).1
  unfold sccClass
  apply List.filter_congr
  intro w _
  have hiff : mutualReach g u w = true ↔ mutualReach g v w = true := by
    constructor
    · intro hw
      have hsymm : mutualReach g v u = true := by
        rw [mutualReach_symm]
        exact h
      exact mutualReach_trans g v u w hv hWF2 hsymm hw
    · intro hw
      exact mutualReach_trans g u v w hu hWF2 h hw
  cases hx : mutualReach g u w
  · cases hy : mutualReach g v w
    · rfl
    · exact absurd (hiff.mpr hy) (by rw [hx]; exact Bool.false_ne_true)
  · rw [hiff.mp hx]

/-- Fold invariant of the component enumeration: the accumulated components
are classes of nodes below `n`, pairwise disjoint, only grow, and after the
fold every processed node is covered. -/
theorem sccStep_fold_inv (g : DiGraphM)
    (hWF2 : ∀ e ∈ g.edges, e.2 < g.nodes.length) :
    ∀ (pr : List Nat) (acc : List (List Nat)),
    (∀ v ∈ pr, v < g.nodes.length) →
    (∀ c ∈ acc, ∃ u, u < g.nodes.length ∧ c = sccClass g u) →
    acc.Pairwise List.Disjoint →
    (∀ c ∈ acc, c ∈ pr.foldl (sccStep g) acc) ∧
    (∀ c ∈ pr.foldl (sccStep g) acc,
      ∃ u, u < g.nodes.length ∧ c = sccClass g u) ∧
    (pr.foldl (sccStep g) acc).Pairwise List.Disjoint ∧
    (∀ v ∈ pr, ∃ c ∈ pr.foldl (sccStep g) acc, v ∈ c) := by
  intro pr
  induction pr with
  | nil =>
    intro acc _ h1 h2
    refine ⟨fun c hc => hc, h1, h2, ?_⟩
    intro v hv
    cases hv
  | cons v pr ih =>
    intro acc hpr h1 h2
    rw [List.foldl_cons]
    have hv : v < g.nodes.length := hpr v (List.mem_cons_self _ _)
    have hpr' : ∀ w ∈ pr, w < g.nodes.length :=
      fun w hw => hpr w (List.mem_cons_of_mem _ hw)
    by_cases hcov : acc.any (fun c => v ∈ c)
    · have hstep : sccStep g acc v = acc := by
        unfold sccStep
        rw [if_pos hcov]
      rw [hstep]
      obtain ⟨hkeep, hcls, hdisj, hcover⟩ := ih acc hpr' h1 h2
      refine ⟨hkeep, hcls, hdisj, ?_⟩
      intro w hw
      rcases List.mem_cons.mp hw with hw | hw
      · subst hw
        rw [List.any_eq_true] at hcov
        obtain ⟨c, hc, hvc⟩ := hcov
        exact ⟨c, hkeep c hc, by simpa using hvc⟩
      · exact hcover w hw
    · have hstep : sccStep g acc v = acc ++ [sccClass g v] := by
        unfold sccStep
        rw [if_neg hcov]
      rw [hstep]
      have hnotin : ∀ c ∈ acc, v ∉ c := by
        intro c hc hvc
        apply hcov
        rw [List.any_eq_true]
        exact ⟨c, hc, by simpa using hvc⟩
      have h1' : ∀ c ∈ acc ++ [sccClass g v],
          ∃ u, u < g.nodes.length ∧ c = sccClass g u := by
        intro c hc
        rcases List.mem_append.mp hc with hc | hc
        · exact h1 c hc
        · rw [List.mem_singleton] at hc
          exact ⟨v, hv, hc⟩
      have h2' : (acc ++ [sccClass g v]).Pairwise List.Disjoint := by
        rw [List.pairwise_append]
        refine ⟨h2, List.pairwise_singleton _ _, ?_⟩
        intro c hc c' hc'
        rw [List.mem_singleton] at hc'
        subst hc'
        obtain ⟨u, hu, hcu⟩ := h1 c hc
        intro w hwc hwv
        rw [hcu, mem_sccClass] at hwc
        rw [mem_sccClass] at hwv
        have huv : mutualReach g u v = true := by
          refine mutualReach_trans g u w v hu hWF2 hwc.2 ?_
          rw [mutualReach_symm]
          exact hwv.2
        apply hnotin c hc
        rw [hcu, mem_sccClass]
        exact ⟨hv, huv⟩
      obtain ⟨hkeep, hcls, hdisj, hcover⟩ :=
        ih (acc ++ [sccClass g v]) hpr' h1' h2'
      refine ⟨fun c hc => hkeep c (List.mem_append_left _ hc), hcls, hdisj, ?_⟩
      intro w hw
      rcases List.mem_cons.mp hw with hw | hw
      · subst hw
        refine ⟨sccClass g w, hkeep _ (List.mem_append_right _
          (List.mem_singleton_self _)), self_mem_sccClass g w hv⟩
      · exact hcover w hw

theorem sccList_classes (g : DiGraphM)
    (hWF2 : ∀ e ∈ g.edges, e.2 < g.nodes.length) :
    ∀ c ∈ sccList g, ∃ u, u < g.nodes.length ∧ c = sccClass g u :=
  (sccStep_fold_inv g hWF2 (List.range g.nodes.length) []
    (fun v hv => List.mem_range.mp hv) (fun c hc => absurd hc (List.not_mem_nil c))
    List.Pairwise.nil).2.1

theorem sccList_disjoint (g : DiGraphM)
    (hWF2 : ∀ e ∈ g.edges, e.2 < g.nodes.length) :
    (sccList g).Pairwise List.Disjoint :=
  (sccStep_fold_inv g hWF2 (List.range g.nodes.length) []
    (fun v hv => List.mem_range.mp hv) (fun c hc => absurd hc (List.not_mem_nil c))
    List.Pairwise.nil).2.2.1

theorem sccList_covers (g : DiGraphM)
    (hWF2 : ∀ e ∈ g.edges, e.2 < g.nodes.length) :
    ∀ v, v < g.nodes.length → ∃ c ∈ sccList g, v ∈ c := by
  intro v hv
  exact (sccStep_fold_inv g hWF2 (List.range g.nodes.length) []
    (fun w hw => List.mem_range.mp hw) (fun c hc => absurd hc (List.not_mem_nil c))
    List.Pairwise.nil).2.2.2 v (List.mem_range.mpr hv)

theorem sccList_flatten_nodup (g : DiGraphM)
    (hWF2 : ∀ e ∈ g.edges, e.2 < g.nodes.length) :
    (sccList g).flatten.Nodup := by
  rw [List.nodup_flatten]
  refine ⟨?_, sccList_disjoint g hWF2⟩
  intro c hc
  obtain ⟨u, _, hcu⟩ := sccList_classes g hWF2 c hc
  rw [hcu]
  exact sccClass_nodup g u

theorem sccList_flatten_mem (g : DiGraphM)
    (hWF2 : ∀ e ∈ g.edges, e.2 < g.nodes.length) (v : Nat) :
    v ∈ (sccList g).flatten ↔ v < g.nodes.length := by
  rw [List.mem_flatten]
  constructor
  · rintro ⟨c, hc, hvc⟩
    obtain ⟨u, _, hcu⟩ := sccList_classes g hWF2 c hc
    rw [hcu, mem_sccClass] at hvc
    exact hvc.1
  · exact sccList_covers g hWF2 v

theorem sccList_flatten_perm (g : DiGraphM)
    (hWF2 : ∀ e ∈ g.edges, e.2 < g.nodes.length) :
    (sccList g).flatten.Perm (List.range g.nodes.length) := by
  refine List.perm_of_nodup_nodup_toFinset_eq (sccList_flatten_nodup g hWF2)
    (List.nodup_range _) ?_
  apply Finset.ext
  intro v
  rw [List.mem_toFinset, List.mem_toFinset, sccList_flatten_mem g hWF2,
    List.mem_range]

/-! ### Clusters -/

theorem foldMax_spec (score : String → ℚ) :
    ∀ (xs : List String) (x : String),
    (xs.foldl (fun m y => if score m > score y then m else y) x) ∈ x :: xs ∧
    score x ≤ score (xs.foldl (fun m y => if score m > score y then m else y) x) ∧
    ∀ m ∈ xs, score m ≤
      score (xs.foldl (fun m y => if score m > score y then m else y) x) := by
  intro xs
  induction xs with
  | nil =>
    intro x
    refine ⟨List.mem_singleton_self x, le_refl _, ?_⟩
    intro m hm
    cases hm
  | cons y ys ih =>
    intro x
    rw [List.foldl_cons]
    by_cases h : score x > score y
    · rw [if_pos h]
      obtain ⟨h1, h2, h3⟩ := ih x
      refine ⟨?_, h2, ?_⟩
      · rcases List.mem_cons.mp h1 with h' | h'
        · rw [h']
          exact List.mem_cons_self _ _
        · exact List.mem_cons_of_mem _ (List.mem_cons_of_mem _ h')
      · intro m hm
        rcases List.mem_cons.mp hm with hm | hm
        · rw [hm]
          exact le_trans (le_of_lt h) h2
        · exact h3 m hm
    · rw [if_neg h]
      obtain ⟨h1, h2, h3⟩ := ih y
      have hxy : score x ≤ score y := le_of_not_lt h
      refine ⟨?_, le_trans hxy h2, ?_⟩
      · rcases List.mem_cons.mp h1 with h' | h'
        · rw [h']
          exact List.mem_cons_of_mem _ (List.mem_cons_self _ _)
        · exact List.mem_cons_of_mem _ (List.mem_cons_of_mem _ h')
      · intro m hm
        rcases List.mem_cons.mp hm with hm | hm
        · rw [hm]
          exact h2
        · exact h3 m hm

theorem maxByRank_spec (score : String → ℚ) (l : List String)
    (hne : l ≠ []) :
    ∃ ctr, maxByRank score l = some ctr ∧ ctr ∈ l ∧
      ∀ m ∈ l, score m ≤ score ctr := by
  cases l with
  | nil => exact absurd rfl hne
  | cons x xs =>
    obtain ⟨h1, h2, h3⟩ := foldMax_spec score xs x
    refine ⟨_, rfl, h1, ?_⟩
    intro m hm
    rcases List.mem_cons.mp hm with hm | hm
    · rw [hm]
      exact h2
    · exact h3 m hm

theorem mem_enum_snd {α : Type} (l : List α) (p : Nat × α)
    (h : p ∈ l.enum) : p.2 ∈ l := by
  rw [List.enum_eq_zip_range] at h
  obtain ⟨i, a⟩ := p
  exact (List.of_mem_zip h).2

theorem exists_enum_of_mem {α : Type} (l : List α) (a : α) (h : a ∈ l) :
    ∃ p ∈ l.enum, p.2 = a := by
  obtain ⟨i, hget⟩ := List.mem_iff_get.mp h
  refine ⟨(i.1, a), ?_, rfl⟩
  rw [List.mem_enum_iff_get?]
  show l.get? i.1 = some a
  rw [List.get?_eq_get i.2, hget]

theorem enum_map_snd_comp {α β : Type} (l : List α) (h : α → β) :
    l.enum.map (fun p => h p.2) = l.map h := by
  have : l.enum.map (fun p => h p.2) = (l.enum.map Prod.snd).map h := by
    rw [List.map_map]
    rfl
  rw [this, List.enum_map_snd]

theorem map_getD_range (l : List String) :
    (List.range l.length).map (fun i => l.getD i "") = l := by
  apply List.ext_get
  · rw [List.length_map, List.length_range]
  · intro i h1 h2
    rw [List.get_map]
    have hi : (List.range l.length).get ⟨i, by simpa using h1⟩ = i := by
      simp
    rw [hi]
    rw [List.getD_eq_get l "" h2]

theorem get_clusters_sound (st : EngineState) (cl : KnowledgeCluster)
    (h : cl ∈ get_clusters st) :
    ∃ comp ∈ sccList st.directed_graph,
      cl.nodes = comp.map (fun idx => st.directed_graph.nodes.getD idx "") ∧
      cl.size = cl.nodes.length ∧
      cl.center_node = maxByRank (fun id =>
        (mapLookup (compute_pagerank st (17/20) 20) id).getD 0) cl.nodes := by
  unfold get_clusters at h
  rw [(sortBy_perm _ _).mem_iff, List.mem_map] at h
  obtain ⟨p, hp, hcl⟩ := h
  refine ⟨p.2, mem_enum_snd _ p hp, ?_, ?_, ?_⟩ <;> rw [← hcl]

theorem get_clusters_complete (st : EngineState) (comp : List Nat)
    (h : comp ∈ sccList st.directed_graph) :
    ∃ cl ∈ get_clusters st,
      cl.nodes = comp.map (fun idx => st.directed_graph.nodes.getD idx "") ∧
      cl.size = cl.nodes.length ∧
      cl.center_node = maxByRank (fun id =>
        (mapLookup (compute_pagerank st (17/20) 20) id).getD 0) cl.nodes := by
  obtain ⟨p, hp, hp2⟩ := exists_enum_of_mem _ comp h
  subst hp2
  refine ⟨KnowledgeCluster.mk p.1
      (p.2.map (fun idx => st.directed_graph.nodes.getD idx "")).length
      (p.2.map (fun idx => st.directed_graph.nodes.getD idx ""))
      (maxByRank (fun id =>
        (mapLookup (compute_pagerank st (17/20) 20) id).getD 0)
        (p.2.map (fun idx => st.directed_graph.nodes.getD idx ""))),
    ?_, rfl, rfl, rfl⟩
  unfold get_clusters
  rw [(sortBy_perm _ _).mem_iff, List.mem_map]
  exact ⟨p, hp, rfl⟩

theorem get_clusters_nodes_perm (st : EngineState)
    (hWF2 : ∀ e ∈ st.directed_graph.edges,
      e.2 < st.directed_graph.nodes.length) :
    (((get_clusters st).map (·.nodes)).flatten).Perm
      st.directed_graph.nodes := by
  have h1 : ((get_clusters st).map (·.nodes)).Perm
      (((sccList st.directed_graph).enum.map (fun p =>
        KnowledgeCluster.mk p.1
          (p.2.map (fun idx => st.directed_graph.nodes.getD idx "")).length
          (p.2.map (fun idx => st.directed_graph.nodes.getD idx ""))
          (maxByRank (fun id =>
            (mapLookup (compute_pagerank st (17/20) 20) id).getD 0)
            (p.2.map (fun idx => st.directed_graph.nodes.getD idx ""))))).map
        (·.nodes)) := by
    apply List.Perm.map
    exact sortBy_perm _ _
  have h2 : (((sccList st.directed_graph).enum.map (fun p =>
      KnowledgeCluster.mk p.1
        (p.2.map (fun idx => st.directed_graph.nodes.getD idx "")).length
        (p.2.map (fun idx => st.directed_graph.nodes.getD idx ""))
        (maxByRank (fun id =>
          (mapLookup (compute_pagerank st (17/20) 20) id).getD 0)
          (p.2.map (fun idx => st.directed_graph.nodes.getD idx ""))))).map
      (·.nodes)) =
      (sccList st.directed_graph).map (fun comp =>
        comp.map (fun idx => st.directed_graph.nodes.getD idx "")) := by
    rw [List.map_map]
    exact enum_map_snd_comp _ _
  refine (h1.flatten).trans ?_
  rw [h2, ← List.map_flatten]
  refine ((sccList_flatten_perm st.directed_graph hWF2).map _).trans ?_
  rw [map_getD_range]

theorem build_edges_wf' (cards : List CardListItem) :
    ∀ e ∈ (build_from_cards cards).directed_graph.edges,
      e.1 < (build_from_cards cards).directed_graph.nodes.length ∧
      e.2 < (build_from_cards cards).directed_graph.nodes.length := by
  intro e he
  have h := build_edges_wf cards e he
  rw [build_nodes, List.length_map]
  exact h

theorem build_indices_getD' (cards : List CardListItem) (k : String)
    (i : Nat)
    (h : mapLookup (build_from_cards cards).node_indices k = some i) :
    i < (build_from_cards cards).directed_graph.nodes.length ∧
    (build_from_cards cards).directed_graph.nodes.getD i "" = k := by
  have hres := build_indices_getD cards k i h
  refine ⟨?_, hres.2⟩
  rw [build_nodes, List.length_map]
  exact hres.1

theorem nodup_getD_inj (l : List String) (hnd : l.Nodup) (i j : Nat)
    (hi : i < l.length) (hj : j < l.length)
    (h : l.getD i "" = l.getD j "") : i = j := by
  rw [List.getD_eq_get l "" hi, List.getD_eq_get l "" hj] at h
  have heq := (List.Nodup.get_inj_iff hnd).mp h
  exact congrArg Fin.val heq

theorem reaches_eq_of_no_out (g : DiGraphM) (i w : Nat)
    (hout : outDegree g i = 0) (h : Reaches g i w) : w = i := by
  rcases Relation.ReflTransGen.cases_head h with heq | ⟨c, hc, _⟩
  · exact heq.symm
  · exfalso
    have hpos := outDegree_pos_of_mem g (i, c) hc
    simp only at hpos
    omega

theorem nodup_mem_singleton_eq (l : List Nat) (i : Nat) (hnd : l.Nodup)
    (h : ∀ x, x ∈ l ↔ x = i) : l = [i] := by
  cases l with
  | nil =>
    have := (h i).mpr rfl
    cases this
  | cons x xs =>
    have hx : x = i := (h x).mp (List.mem_cons_self _ _)
    subst hx
    have hxs : xs = [] := by
      cases xs with
      | nil => rfl
      | cons y ys =>
        have hy : y = x :=
          (h y).mp (List.mem_cons_of_mem _ (List.mem_cons_self _ _))
        rw [List.nodup_cons] at hnd
        exact absurd (hy ▸ List.mem_cons_self y ys) hnd.1
    rw [hxs]

theorem sccClass_isolated (g : DiGraphM) (i : Nat)
    (hi : i < g.nodes.length) (hout : outDegree g i = 0)
    (hWF2 : ∀ e ∈ g.edges, e.2 < g.nodes.length) :
    sccClass g i = [i] := by
  apply nodup_mem_singleton_eq _ i (sccClass_nodup g i)
  intro w
  rw [mem_sccClass]
  constructor
  · rintro ⟨_, hmr⟩
    have hr := (mutualReach_iff g i w hi hWF2).mp hmr
    exact reaches_eq_of_no_out g i w hout hr.1
  · intro hw
    subst hw
    exact ⟨hi, mutualReach_refl g w⟩

/-- C3: `get_clusters` returns exactly the strongly connected components of
the directed graph: the cluster node lists partition the graph's node
multiset; a member `y` lies in `x`'s cluster precisely when `x` and `y` are
mutually reachable (for distinct ids); a node with no incident edges forms
a singleton cluster of size `1`; the clusters come sorted by descending
size; and each `center_node` is a member of maximal PageRank score within
its cluster. -/
theorem C3_clusters (cards : List CardListItem) :
    ((get_clusters (build_from_cards cards)).map (·.nodes)).flatten.Perm
        (build_from_cards cards).directed_graph.nodes ∧
    ((get_clusters (build_from_cards cards)).map (·.size)).Pairwise
      (· ≥ ·) ∧
    (∀ cl ∈ get_clusters (build_from_cards cards),
      cl.size = cl.nodes.length) ∧
    (∀ cl ∈ get_clusters (build_from_cards cards),
      ∃ ctr, cl.center_node = some ctr ∧ ctr ∈ cl.nodes ∧
        ∀ m ∈ cl.nodes,
          (mapLookup (compute_pagerank (build_from_cards cards)
            (17/20) 20) m).getD 0 ≤
          (mapLookup (compute_pagerank (build_from_cards cards)
            (17/20) 20) ctr).getD 0) ∧
    ((cards.map (·.id)).Nodup →
      ∀ cl ∈ get_clusters (build_from_cards cards), ∀ x ∈ cl.nodes,
      ∀ y ix iy,
        mapLookup (build_from_cards cards).node_indices x = some ix →
        mapLookup (build_from_cards cards).node_indices y = some iy →
        (y ∈ cl.nodes ↔
          (Reaches (build_from_cards cards).directed_graph ix iy ∧
           Reaches (build_from_cards cards).directed_graph iy ix))) ∧
    (∀ id i,
      mapLookup (build_from_cards cards).node_indices id = some i →
      inDegree (build_from_cards cards).directed_graph i = 0 →
      outDegree (build_from_cards cards).directed_graph i = 0 →
      ∃ cl ∈ get_clusters (build_from_cards cards),
        cl.nodes = [id] ∧ cl.size = 1) := by
  have hWF2 : ∀ e ∈ (build_from_cards cards).directed_graph.edges,
      e.2 < (build_from_cards cards).directed_graph.nodes.length :=
    fun e he => (build_edges_wf' cards e he).2
  refine ⟨?_, ?_, ?_, ?_, ?_, ?_⟩
  · exact get_clusters_nodes_perm (build_from_cards cards) hWF2
  · have hp := sortBy_pairwise
      (fun a b : KnowledgeCluster => decide (b.size ≤ a.size))
      (fun a b => by
        rcases Nat.le_total a.size b.size with h | h
        · right; simpa using h
        · left; simpa using h)
      (fun a b c h1 h2 => by
        simp only [decide_eq_true_eq] at h1 h2 ⊢
        omega)
    have hcls : get_clusters (build_from_cards cards) =
        sortBy (fun a b => decide (b.size ≤ a.size))
          ((sccList (build_from_cards cards).directed_graph).enum.map
            (fun p =>
              let nodes := p.2.map (fun idx =>
                (build_from_cards cards).directed_graph.nodes.getD idx "")
              KnowledgeCluster.mk p.1 nodes.length nodes
                (maxByRank (fun id => (mapLookup (compute_pagerank
                  (build_from_cards cards) (17/20) 20) id).getD 0)
                  nodes))) := rfl
    rw [hcls]
    refine List.Pairwise.map _ ?_ (hp _)
    intro a b hab
    simpa using hab
  · intro cl hcl
    exact (get_clusters_sound _ cl hcl).choose_spec.2.2.1
  · intro cl hcl
    obtain ⟨comp, hcomp, hnodes, _, hcenter⟩ := get_clusters_sound _ cl hcl
    obtain ⟨u, hu, hcompu⟩ :=
      sccList_classes _ hWF2 comp hcomp
    have hne : cl.nodes ≠ [] := by
      rw [hnodes, hcompu]
      intro hcontra
      have hmem := self_mem_sccClass (build_from_cards cards).directed_graph
        u hu
      have : (sccClass (build_from_cards cards).directed_graph u).map
          (fun idx =>
            (build_from_cards cards).directed_graph.nodes.getD idx "") ≠ [] := by
        intro hmap
        rw [List.map_eq_nil_iff] at hmap
        rw [hmap] at hmem
        cases hmem
      exact this hcontra
    obtain ⟨ctr, hctr, hctrmem, hmax⟩ := maxByRank_spec _ cl.nodes hne
    exact ⟨ctr, by rw [hcenter]; exact hctr, hctrmem, hmax⟩
  · intro hnd cl hcl x hx y ix iy hix hiy
    obtain ⟨comp, hcomp, hnodes, _, _⟩ := get_clusters_sound _ cl hcl
    obtain ⟨u, hu, hcompu⟩ := sccList_classes _ hWF2 comp hcomp
    have hnodesN : (build_from_cards cards).directed_graph.nodes.Nodup := by
      rw [build_nodes]
      exact hnd
    have hgetx := build_indices_getD' cards x ix hix
    have hgety := build_indices_getD' cards y iy hiy
    have hixmem : ix ∈ comp := by
      rw [hnodes] at hx
      rw [List.mem_map] at hx
      obtain ⟨i', hi', hgi'⟩ := hx
      have hi'lt : i' < (build_from_cards cards).directed_graph.nodes.length := by
        rw [hcompu, mem_sccClass] at hi'
        exact hi'.1
      have : i' = ix := nodup_getD_inj _ hnodesN i' ix hi'lt hgetx.1
        (hgi'.trans hgetx.2.symm)
      rw [← this]
      exact hi'
    have hux : mutualReach (build_from_cards cards).directed_graph u ix = true := by
      rw [hcompu, mem_sccClass] at hixmem
      exact hixmem.2
    have hymem : y ∈ cl.nodes ↔ iy ∈ comp := by
      rw [hnodes, List.mem_map]
      constructor
      · rintro ⟨i', hi', hgi'⟩
        have hi'lt : i' < (build_from_cards cards).directed_graph.nodes.length := by
          rw [hcompu, mem_sccClass] at hi'
          exact hi'.1
        have : i' = iy := nodup_getD_inj _ hnodesN i' iy hi'lt hgety.1
          (hgi'.trans hgety.2.symm)
        rw [← this]
        exact hi'
      · intro hiymem
        exact ⟨iy, hiymem, hgety.2⟩
    rw [hymem, hcompu, mem_sccClass]
    constructor
    · rintro ⟨_, huy⟩
      have hxy : mutualReach (build_from_cards cards).directed_graph ix iy = true := by
        have hxu : mutualReach (build_from_cards cards).directed_graph ix u = true := by
          rw [mutualReach_symm]
          exact hux
        exact mutualReach_trans _ ix u iy hgetx.1 hWF2 hxu huy
      exact (mutualReach_iff _ ix iy hgetx.1 hWF2).mp hxy
    · intro hr
      have hxy : mutualReach (build_from_cards cards).directed_graph ix iy = true :=
        (mutualReach_iff _ ix iy hgetx.1 hWF2).mpr hr
      exact ⟨hgety.1, mutualReach_trans _ u ix iy hu hWF2 hux hxy⟩
  · intro id i hlook _ hout
    have hgi := build_indices_getD' cards id i hlook
    obtain ⟨comp, hcomp, himem⟩ :=
      sccList_covers _ hWF2 i hgi.1
    obtain ⟨u, hu, hcompu⟩ := sccList_classes _ hWF2 comp hcomp
    have hcompi : comp = [i] := by
      rw [hcompu]
      have hui : mutualReach (build_from_cards cards).directed_graph u i = true := by
        rw [hcompu, mem_sccClass] at himem
        exact himem.2
      rw [sccClass_congr _ u i hu hWF2 hui]
      exact sccClass_isolated _ i hgi.1 hout hWF2
    obtain ⟨cl, hcl, hnodes, hsize, _⟩ :=
      get_clusters_complete (build_from_cards cards) comp hcomp
    refine ⟨cl, hcl, ?_, ?_⟩
    · rw [hnodes, hcompi]
      show [(build_from_cards cards).directed_graph.nodes.getD i ""] = [id]
      rw [hgi.2]
    · rw [hsize, hnodes, hcompi]
      rfl

theorem C3_witness :
    ∃ cl ∈ get_clusters (build_from_cards singleCard),
      cl.nodes = ["c"] ∧ cl.size = 1 :=
  (C3_clusters singleCard).2.2.2.2.2 "c" 0 (by decide) (by decide) (by decide)

/-! ### Undirected connectivity for the layout path -/

theorem mem_neighborsU (g : UGraphM) (i w : Nat) :
    w ∈ neighborsU g i ↔ (i, w) ∈ g.edges ∨ (w, i) ∈ g.edges := by
  unfold neighborsU
  rw [List.mem_flatMap]
  constructor
  · rintro ⟨e, he, hw⟩
    by_cases h1 : e.1 = i
    · rw [if_pos (by simpa using h1)] at hw
      rw [List.mem_singleton] at hw
      left
      have : e = (i, w) := Prod.ext h1 hw.symm
      rw [← this]
      exact he
    · rw [if_neg (by simpa using h1)] at hw
      by_cases h2 : e.2 = i
      · rw [if_pos (by simpa using h2)] at hw
        rw [List.mem_singleton] at hw
        right
        have : e = (w, i) := Prod.ext hw.symm h2
        rw [← this]
        exact he
      · rw [if_neg (by simpa using h2)] at hw
        cases hw
  · rintro (h | h)
    · exact ⟨(i, w), h, by simp⟩
    · refine ⟨(w, i), h, ?_⟩
      by_cases h1 : w = i
      · simp [h1]
      · simp [h1]

theorem symGraph_mem (g : UGraphM) (a b : Nat) :
    (a, b) ∈ (symGraph g).edges ↔ (a, b) ∈ g.edges ∨ (b, a) ∈ g.edges := by
  unfold symGraph
  simp only [List.mem_append, List.mem_map]
  constructor
  · rintro (h | ⟨e, he, heq⟩)
    · exact Or.inl h
    · right
      obtain ⟨h1, h2⟩ := Prod.mk.injEq .. ▸ heq
      have : e = (b, a) := Prod.ext h2 h1
      rw [← this]
      exact he
  · rintro (h | h)
    · exact Or.inl h
    · exact Or.inr ⟨(b, a), h, rfl⟩

theorem neighborsU_symGraph (g : UGraphM) (i w : Nat) :
    w ∈ neighborsU g i ↔ (i, w) ∈ (symGraph g).edges := by
  rw [mem_neighborsU, symGraph_mem]

theorem reachU_refl (g : UGraphM) (a : Nat) : reachU g a a :=
  Relation.ReflTransGen.refl

theorem reachU_trans (g : UGraphM) (a b c : Nat) (h1 : reachU g a b)
    (h2 : reachU g b c) : reachU g a c :=
  Relation.ReflTransGen.trans h1 h2

theorem reachU_symm (g : UGraphM) (a b : Nat) (h : reachU g a b) :
    reachU g b a := by
  unfold reachU Reaches at h ⊢
  induction h with
  | refl => exact Relation.ReflTransGen.refl
  | tail _ hedge ih =>
    refine Relation.ReflTransGen.trans ?_ ih
    refine Relation.ReflTransGen.single ?_
    rcases (symGraph_mem g _ _).mp hedge with h' | h'
    · exact (symGraph_mem g _ _).mpr (Or.inr h')
    · exact (symGraph_mem g _ _).mpr (Or.inl h')

theorem reachU_step (g : UGraphM) (i w : Nat) (h : w ∈ neighborsU g i) :
    reachU g i w :=
  Relation.ReflTransGen.single ((neighborsU_symGraph g i w).mp h)

/-- A set of node keys closed under adjacency absorbs undirected
reachability. -/
theorem reach_closed_mem (g : UGraphM) (keys : List Nat)
    (hcl : ∀ v ∈ keys, ∀ w ∈ neighborsU g v, w ∈ keys) :
    ∀ a b, a ∈ keys → reachU g a b → b ∈ keys := by
  intro a b ha h
  unfold reachU Reaches at h
  induction h with
  | refl => exact ha
  | tail _ hedge ih =>
    refine hcl _ ih _ ?_
    rw [neighborsU_symGraph]
    exact hedge

theorem neighborsU_length_le (g : UGraphM) (i : Nat) :
    (neighborsU g i).length ≤ g.edges.length := by
  unfold neighborsU
  induction g.edges with
  | nil => simp
  | cons e es ih =>
    rw [List.flatMap_cons, List.length_append, List.length_cons]
    have hone : (if e.1 == i then [e.2] else
        if e.2 == i then [e.1] else []).length ≤ 1 := by
      by_cases h1 : e.1 == i
      · rw [if_pos h1]
        exact le_refl _
      · rw [if_neg h1]
        by_cases h2 : e.2 == i
        · rw [if_pos h2]
          exact le_refl _
        · rw [if_neg h2]
          exact Nat.zero_le _
    omega

/-- Full specification of the stack traversal: starting from `stack` with
already-`visited` nodes, with enough fuel the loop returns `visited`
extended by new entries, all labelled `cl`, all reachable from the stack,
with no key repeated, every stacked node finally visited, and every
neighbor of a newly visited node finally visited. -/
theorem dfsLoop_spec (g : UGraphM)
    (hWF : ∀ e ∈ g.edges, e.1 < g.nodes.length ∧
      e.2 < g.nodes.length) :
    ∀ (fuel : Nat) (stack : List Nat) (visited : List (Nat × Nat)) (cl : Nat),
    (∀ s ∈ stack, s < g.nodes.length) →
    (visited.map (·.1)).Nodup →
    (∀ p ∈ visited, p.1 < g.nodes.length) →
    stack.length + (g.nodes.length - visited.length) *
      (g.edges.length + 1) ≤ fuel →
    ∃ new : List (Nat × Nat),
      dfsLoop g fuel stack visited cl = visited ++ new ∧
      (∀ p ∈ new, p.2 = cl ∧ p.1 < g.nodes.length) ∧
      ((visited ++ new).map (·.1)).Nodup ∧
      (∀ s ∈ stack, s ∈ (visited ++ new).map (·.1)) ∧
      (∀ p ∈ new, ∃ s ∈ stack, reachU g s p.1) ∧
      (∀ p ∈ new, ∀ w ∈ neighborsU g p.1,
        w ∈ (visited ++ new).map (·.1)) := by
  intro fuel
  induction fuel with
  | zero =>
    intro stack visited cl hstack hnd hvlt hfuel
    have hstack0 : stack = [] := by
      cases stack with
      | nil => rfl
      | cons s ss =>
        rw [List.length_cons] at hfuel
        omega
    subst hstack0
    refine ⟨[], by rw [List.append_nil]; rfl, ?_, ?_, ?_, ?_, ?_⟩
    · intro p hp
      cases hp
    · rw [List.append_nil]
      exact hnd
    · intro s hs
      cases hs
    · intro p hp
      cases hp
    · intro p hp
      cases hp
  | succ fuel ih =>
    intro stack visited cl hstack hnd hvlt hfuel
    cases stack with
    | nil =>
      refine ⟨[], by rw [List.append_nil]; rfl, ?_, ?_, ?_, ?_, ?_⟩
      · intro p hp
        cases hp
      · rw [List.append_nil]
        exact hnd
      · intro s hs
        cases hs
      · intro p hp
        cases hp
      · intro p hp
        cases hp
    | cons node rest =>
      have hnode : node < g.nodes.length :=
        hstack node (List.mem_cons_self _ _)
      have hrest : ∀ s ∈ rest, s < g.nodes.length :=
        fun s hs => hstack s (List.mem_cons_of_mem _ hs)
      by_cases hvis : visited.any (fun p => p.1 == node)
      · have hloop : dfsLoop g (fuel + 1) (node :: rest) visited cl =
            dfsLoop g fuel rest visited cl := by
          show (if visited.any (fun p => p.1 == node)
            then dfsLoop g fuel rest visited cl
            else _) = dfsLoop g fuel rest visited cl
          rw [if_pos hvis]
        have hfuel' : rest.length + (g.nodes.length - visited.length) *
            (g.edges.length + 1) ≤ fuel := by
          rw [List.length_cons] at hfuel
          omega
        obtain ⟨new, h1, h2, h3, h4, h5, h6⟩ :=
          ih rest visited cl hrest hnd hvlt hfuel'
        refine ⟨new, by rw [hloop, h1], h2, h3, ?_, ?_, h6⟩
        · intro s hs
          rcases List.mem_cons.mp hs with hs | hs
          · subst hs
            rw [List.any_eq_true] at hvis
            obtain ⟨p, hp, hps⟩ := hvis
            rw [List.map_append, List.mem_append]
            left
            rw [List.mem_map]
            exact ⟨p, hp, by simpa using hps⟩
          · exact h4 s hs
        · intro p hp
          obtain ⟨s, hs, hr⟩ := h5 p hp
          exact ⟨s, List.mem_cons_of_mem _ hs, hr⟩
      · have hnotin : node ∉ visited.map (·.1) := by
          intro hmem
          apply hvis
          rw [List.any_eq_true]
          rw [List.mem_map] at hmem
          obtain ⟨p, hp, hps⟩ := hmem
          exact ⟨p, hp, by simpa using hps⟩
        have hlen : visited.length < g.nodes.length := by
          have hnd2 : (node :: visited.map (·.1)).Nodup :=
            List.nodup_cons.mpr ⟨hnotin, hnd⟩
          have hsub : (node :: visited.map (·.1)).toFinset ⊆
              Finset.range g.nodes.length := by
            intro x hx
            rw [List.mem_toFinset] at hx
            rw [Finset.mem_range]
            rcases List.mem_cons.mp hx with hx | hx
            · subst hx
              exact hnode
            · rw [List.mem_map] at hx
              obtain ⟨p, hp, hpx⟩ := hx
              rw [← hpx]
              exact hvlt p hp
          have hcard : (node :: visited.map (·.1)).length ≤
              g.nodes.length := by
            calc (node :: visited.map (·.1)).length
                = (node :: visited.map (·.1)).toFinset.card :=
                  (List.toFinset_card_of_nodup hnd2).symm
              _ ≤ (Finset.range g.nodes.length).card :=
                  Finset.card_le_card hsub
              _ = g.nodes.length := Finset.card_range _
          rw [List.length_cons, List.length_map] at hcard
          omega
        have hloop : dfsLoop g (fuel + 1) (node :: rest) visited cl =
            dfsLoop g fuel
              (((neighborsU g node).filter (fun nb =>
                ¬ (visited ++ [(node, cl)]).any (fun p => p.1 == nb))).reverse
                ++ rest)
              (visited ++ [(node, cl)]) cl := by
          show (if visited.any (fun p => p.1 == node)
            then dfsLoop g fuel rest visited cl else _) = _
          rw [if_neg hvis]
        have hpushlen :
            ((neighborsU g node).filter (fun nb =>
              ¬ (visited ++ [(node, cl)]).any (fun p => p.1 == nb))).length ≤
            g.edges.length :=
          le_trans (List.length_filter_le _ _) (neighborsU_length_le g node)
        have hstack' : ∀ s ∈ ((neighborsU g node).filter (fun nb =>
            ¬ (visited ++ [(node, cl)]).any (fun p => p.1 == nb))).reverse
            ++ rest, s < g.nodes.length := by
          intro s hs
          rw [List.mem_append, List.mem_reverse] at hs
          rcases hs with hs | hs
          · have hs' := List.mem_of_mem_filter hs
            rcases (mem_neighborsU g node s).mp hs' with h' | h'
            · exact (hWF _ h').2
            · exact (hWF _ h').1
          · exact hrest s hs
        have hnd' : ((visited ++ [(node, cl)]).map (·.1)).Nodup := by
          rw [List.map_append]
          rw [List.nodup_append]
          refine ⟨hnd, List.nodup_singleton _, ?_⟩
          intro x hx hx'
          rw [List.map_singleton, List.mem_singleton] at hx'
          subst hx'
          exact hnotin hx
        have hvlt' : ∀ p ∈ visited ++ [(node, cl)],
            p.1 < g.nodes.length := by
          intro p hp
          rcases List.mem_append.mp hp with hp | hp
          · exact hvlt p hp
          · rw [List.mem_singleton] at hp
            rw [hp]
            exact hnode
        have hfuel' :
            (((neighborsU g node).filter (fun nb =>
              ¬ (visited ++ [(node, cl)]).any (fun p => p.1 == nb))).reverse
              ++ rest).length +
            (g.nodes.length - (visited ++ [(node, cl)]).length) *
              (g.edges.length + 1) ≤ fuel := by
          rw [List.length_append, List.length_reverse, List.length_append,
            List.length_singleton]
          rw [List.length_cons] at hfuel
          have hM : (g.nodes.length - visited.length) *
              (g.edges.length + 1) =
              (g.nodes.length - (visited.length + 1)) *
                (g.edges.length + 1) + (g.edges.length + 1) := by
            have hsplit : g.nodes.length - visited.length =
                (g.nodes.length - (visited.length + 1)) + 1 := by
              omega
            rw [hsplit, Nat.succ_mul]
          rw [hM] at hfuel
          omega
        obtain ⟨new', h1, h2, h3, h4, h5, h6⟩ :=
          ih _ _ cl hstack' hnd' hvlt' hfuel'
        have hassoc : (visited ++ [(node, cl)]) ++ new' =
            visited ++ ((node, cl) :: new') := by
          rw [List.append_assoc]
          rfl
        refine ⟨(node, cl) :: new', ?_, ?_, ?_, ?_, ?_, ?_⟩
        · rw [hloop, h1, hassoc]
        · intro p hp
          rcases List.mem_cons.mp hp with hp | hp
          · rw [hp]
            exact ⟨rfl, hnode⟩
          · exact h2 p hp
        · rw [← hassoc]
          exact h3
        · intro s hs
          rw [← hassoc]
          rcases List.mem_cons.mp hs with hs | hs
          · subst hs
            rw [List.map_append, List.mem_append]
            left
            rw [List.map_append, List.mem_append]
            right
            rw [List.map_singleton, List.mem_singleton]
          · refine h4 s ?_
            rw [List.mem_append]
            right
            exact hs
        · intro p hp
          rcases List.mem_cons.mp hp with hp | hp
          · refine ⟨node, List.mem_cons_self _ _, ?_⟩
            rw [hp]
            exact reachU_refl g node
          · obtain ⟨s, hs, hr⟩ := h5 p hp
            rw [List.mem_append, List.mem_reverse] at hs
            rcases hs with hs | hs
            · have hs' := List.mem_of_mem_filter hs
              refine ⟨node, List.mem_cons_self _ _, ?_⟩
              exact reachU_trans g node s p.1 (reachU_step g node s hs') hr
            · exact ⟨s, List.mem_cons_of_mem _ hs, hr⟩
        · intro p hp w hw
          rw [← hassoc]
          rcases List.mem_cons.mp hp with hp | hp
          · by_cases hwv : (visited ++ [(node, cl)]).any
              (fun q => q.1 == w)
            · rw [List.any_eq_true] at hwv
              obtain ⟨q, hq, hqw⟩ := hwv
              rw [List.map_append, List.mem_append]
              left
              rw [List.mem_map]
              exact ⟨q, hq, by simpa using hqw⟩
            · refine h4 w ?_
              rw [List.mem_append, List.mem_reverse]
              left
              rw [List.mem_filter]
              have hwn : w ∈ neighborsU g node := by
                rw [hp] at hw
                exact hw
              refine ⟨hwn, ?_⟩
              rw [decide_eq_true_eq]
              exact hwv
          · exact h6 p hp w hw

/-- Invariant of the outer component sweep: visited keys stay distinct,
in-range, adjacency-closed, labels stay below the counter, two visited
nodes carry the same label exactly when they are connected, earlier entries
persist, and every processed node ends up visited. -/
theorem dfsSweep_fold_inv (g : UGraphM)
    (hWF : ∀ e ∈ g.edges, e.1 < g.nodes.length ∧
      e.2 < g.nodes.length) :
    ∀ (pr : List Nat) (acc : List (Nat × Nat) × Nat),
    (∀ v ∈ pr, v < g.nodes.length) →
    (acc.1.map (·.1)).Nodup →
    (∀ p ∈ acc.1, p.1 < g.nodes.length) →
    (∀ p ∈ acc.1, ∀ w ∈ neighborsU g p.1, w ∈ acc.1.map (·.1)) →
    (∀ p ∈ acc.1, p.2 < acc.2) →
    (∀ p ∈ acc.1, ∀ q ∈ acc.1, (p.2 = q.2 ↔ reachU g p.1 q.1)) →
    ((pr.foldl (fun acc idx =>
        if acc.1.any (fun p => p.1 == idx) then acc
        else (dfsLoop g (dfsFuel g) [idx] acc.1 acc.2, acc.2 + 1))
        acc).1.map (·.1)).Nodup ∧
    (∀ p ∈ (pr.foldl (fun acc idx =>
        if acc.1.any (fun p => p.1 == idx) then acc
        else (dfsLoop g (dfsFuel g) [idx] acc.1 acc.2, acc.2 + 1))
        acc).1, p.1 < g.nodes.length) ∧
    (∀ p ∈ (pr.foldl (fun acc idx =>
        if acc.1.any (fun p => p.1 == idx) then acc
        else (dfsLoop g (dfsFuel g) [idx] acc.1 acc.2, acc.2 + 1))
        acc).1, ∀ w ∈ neighborsU g p.1,
      w ∈ (pr.foldl (fun acc idx =>
        if acc.1.any (fun p => p.1 == idx) then acc
        else (dfsLoop g (dfsFuel g) [idx] acc.1 acc.2, acc.2 + 1))
        acc).1.map (·.1)) ∧
    (∀ p ∈ (pr.foldl (fun acc idx =>
        if acc.1.any (fun p => p.1 == idx) then acc
        else (dfsLoop g (dfsFuel g) [idx] acc.1 acc.2, acc.2 + 1))
        acc).1, p.2 < (pr.foldl (fun acc idx =>
        if acc.1.any (fun p => p.1 == idx) then acc
        else (dfsLoop g (dfsFuel g) [idx] acc.1 acc.2, acc.2 + 1))
        acc).2) ∧
    (∀ p ∈ (pr.foldl (fun acc idx =>
        if acc.1.any (fun p => p.1 == idx) then acc
        else (dfsLoop g (dfsFuel g) [idx] acc.1 acc.2, acc.2 + 1))
        acc).1, ∀ q ∈ (pr.foldl (fun acc idx =>
        if acc.1.any (fun p => p.1 == idx) then acc
        else (dfsLoop g (dfsFuel g) [idx] acc.1 acc.2, acc.2 + 1))
        acc).1, (p.2 = q.2 ↔ reachU g p.1 q.1)) ∧
    (∀ p ∈ acc.1, p ∈ (pr.foldl (fun acc idx =>
        if acc.1.any (fun p => p.1 == idx) then acc
        else (dfsLoop g (dfsFuel g) [idx] acc.1 acc.2, acc.2 + 1))
        acc).1) ∧
    (∀ v ∈ pr, v ∈ (pr.foldl (fun acc idx =>
        if acc.1.any (fun p => p.1 == idx) then acc
        else (dfsLoop g (dfsFuel g) [idx] acc.1 acc.2, acc.2 + 1))
        acc).1.map (·.1)) := by
  intro pr
  induction pr with
  | nil =>
    intro acc _ h1 h2 h3 h4 h5
    exact ⟨h1, h2, h3, h4, h5, fun p hp => hp, fun v hv => absurd hv
      (List.not_mem_nil v)⟩
  | cons idx pr ih =>
    intro acc hpr h1 h2 h3 h4 h5
    rw [List.foldl_cons]
    have hidx : idx < g.nodes.length := hpr idx (List.mem_cons_self _ _)
    have hpr' : ∀ v ∈ pr, v < g.nodes.length :=
      fun v hv => hpr v (List.mem_cons_of_mem _ hv)
    by_cases hcov : acc.1.any (fun p => p.1 == idx)
    · rw [if_pos hcov]
      obtain ⟨k1, k2, k3, k4, k5, k6, k7⟩ := ih acc hpr' h1 h2 h3 h4 h5
      refine ⟨k1, k2, k3, k4, k5, k6, ?_⟩
      intro v hv
      rcases List.mem_cons.mp hv with hv | hv
      · subst hv
        rw [List.any_eq_true] at hcov
        obtain ⟨p, hp, hpv⟩ := hcov
        rw [List.mem_map]
        exact ⟨p, k6 p hp, by simpa using hpv⟩
      · exact k7 v hv
    · rw [if_neg hcov]
      have hfuel : ([idx] : List Nat).length +
          (g.nodes.length - acc.1.length) * (g.edges.length + 1) ≤
          dfsFuel g := by
        unfold dfsFuel
        rw [List.length_singleton]
        have hmul : (g.nodes.length - acc.1.length) *
            (g.edges.length + 1) ≤
            g.nodes.length * (2 * g.edges.length + 1) :=
          Nat.mul_le_mul (Nat.sub_le _ _) (by omega)
        omega
      obtain ⟨new, d1, d2, d3, d4, d5, d6⟩ := dfsLoop_spec g hWF
        (dfsFuel g) [idx] acc.1 acc.2
        (fun s hs => by rw [List.mem_singleton] at hs; rw [hs]; exact hidx)
        h1 h2 hfuel
      have hdisj : ∀ x, x ∈ acc.1.map (·.1) → x ∈ new.map (·.1) → False := by
        have hnd := d3
        rw [List.map_append, List.nodup_append] at hnd
        exact fun x hx hx' => hnd.2.2 hx hx'
      have hconn : ∀ p ∈ new, reachU g idx p.1 := by
        intro p hp
        obtain ⟨s, hs, hr⟩ := d5 p hp
        rw [List.mem_singleton] at hs
        rw [← hs]
        exact hr
      have hclosed_old : ∀ a b, a ∈ acc.1.map (·.1) → reachU g a b →
          b ∈ acc.1.map (·.1) :=
        reach_closed_mem g (acc.1.map (·.1)) (fun v hv => by
          rw [List.mem_map] at hv
          obtain ⟨p, hp, hpv⟩ := hv
          intro w hw
          refine h3 p hp w ?_
          rw [hpv]
          exact hw)
      have h1' : ((dfsLoop g (dfsFuel g) [idx] acc.1 acc.2).map (·.1)).Nodup := by
        rw [d1]
        exact d3
      have h2' : ∀ p ∈ dfsLoop g (dfsFuel g) [idx] acc.1 acc.2,
          p.1 < g.nodes.length := by
        rw [d1]
        intro p hp
        rcases List.mem_append.mp hp with hp | hp
        · exact h2 p hp
        · exact (d2 p hp).2
      have h3' : ∀ p ∈ dfsLoop g (dfsFuel g) [idx] acc.1 acc.2,
          ∀ w ∈ neighborsU g p.1,
          w ∈ (dfsLoop g (dfsFuel g) [idx] acc.1 acc.2).map (·.1) := by
        rw [d1]
        intro p hp w hw
        rcases List.mem_append.mp hp with hp | hp
        · rw [List.map_append, List.mem_append]
          left
          exact h3 p hp w hw
        · exact d6 p hp w hw
      have h4' : ∀ p ∈ dfsLoop g (dfsFuel g) [idx] acc.1 acc.2,
          p.2 < acc.2 + 1 := by
        rw [d1]
        intro p hp
        rcases List.mem_append.mp hp with hp | hp
        · exact Nat.lt_succ_of_lt (h4 p hp)
        · rw [(d2 p hp).1]
          exact Nat.lt_succ_self _
      have h5' : ∀ p ∈ dfsLoop g (dfsFuel g) [idx] acc.1 acc.2,
          ∀ q ∈ dfsLoop g (dfsFuel g) [idx] acc.1 acc.2,
          (p.2 = q.2 ↔ reachU g p.1 q.1) := by
        rw [d1]
        intro p hp q hq
        rcases List.mem_append.mp hp with hp | hp <;>
          rcases List.mem_append.mp hq with hq | hq
        · exact h5 p hp q hq
        · constructor
          · intro hv
            exfalso
            have : p.2 < acc.2 := h4 p hp
            rw [hv, (d2 q hq).1] at this
            omega
          · intro hr
            exfalso
            refine hdisj q.1 ?_ (List.mem_map_of_mem _ hq)
            exact hclosed_old p.1 q.1 (List.mem_map_of_mem _ hp) hr
        · constructor
          · intro hv
            exfalso
            have : q.2 < acc.2 := h4 q hq
            rw [← hv, (d2 p hp).1] at this
            omega
          · intro hr
            exfalso
            refine hdisj p.1 ?_ (List.mem_map_of_mem _ hp)
            exact hclosed_old q.1 p.1 (List.mem_map_of_mem _ hq)
              (reachU_symm g p.1 q.1 hr)
        · rw [(d2 p hp).1, (d2 q hq).1]
          constructor
          · intro _
            exact reachU_trans g p.1 idx q.1
              (reachU_symm g idx p.1 (hconn p hp)) (hconn q hq)
          · intro _
            rfl
      obtain ⟨k1, k2, k3, k4, k5, k6, k7⟩ := ih
        (dfsLoop g (dfsFuel g) [idx] acc.1 acc.2, acc.2 + 1)
        hpr' h1' h2' h3' h4' h5'
      refine ⟨k1, k2, k3, k4, k5, ?_, ?_⟩
      · intro p hp
        refine k6 p ?_
        show p ∈ dfsLoop g (dfsFuel g) [idx] acc.1 acc.2
        rw [d1]
        exact List.mem_append_left _ hp
      · intro v hv
        rcases List.mem_cons.mp hv with hv | hv
        · have hvk : v ∈ (dfsLoop g (dfsFuel g) [idx] acc.1 acc.2).map (·.1) := by
            rw [d1, hv]
            exact d4 idx (List.mem_singleton_self idx)
          rw [List.mem_map] at hvk
          obtain ⟨p, hp, hpv⟩ := hvk
          rw [List.mem_map]
          exact ⟨p, k6 p hp, hpv⟩
        · exact k7 v hv

/-! ### Layout graph: node preservation, index inversion, edge bounds -/

theorem layoutEdgeStep_nodes (indices : List (String × Nat))
    (tm : List (String × String)) (s : Nat) (g : UGraphM) (l : String) :
    (layoutEdgeStep indices tm s g l).nodes = g.nodes := by
  unfold layoutEdgeStep
  split
  · rfl
  · split
    · rfl
    · split <;> rfl

theorem foldl_layoutEdgeStep_nodes (indices : List (String × Nat))
    (tm : List (String × String)) (s : Nat) (ls : List String) :
    ∀ g : UGraphM, (ls.foldl (layoutEdgeStep indices tm s) g).nodes =
      g.nodes := by
  induction ls with
  | nil => intro g; rfl
  | cons l ls ih =>
    intro g
    rw [List.foldl_cons, ih, layoutEdgeStep_nodes]

theorem layoutAddEdges_nodes (indices : List (String × Nat))
    (tm : List (String × String)) (g : UGraphM) (c : CardListItem) :
    (layoutAddEdges indices tm g c).nodes = g.nodes := by
  unfold layoutAddEdges
  cases mapLookup indices c.id with
  | none => rfl
  | some s => exact foldl_layoutEdgeStep_nodes indices tm s c.links g

/-- The undirected layout graph has one node per card, in input order. -/
theorem layoutGraph_nodes (cards : List CardListItem) :
    (layoutGraph cards).nodes = cards.map (·.id) := by
  unfold layoutGraph
  have main : ∀ (cs : List CardListItem) (g : UGraphM),
      (cs.foldl (layoutAddEdges (layoutBuildSt cards).node_indices
        (layoutBuildSt cards).title_to_id) g).nodes = g.nodes := by
    intro cs
    induction cs with
    | nil => intro g; rfl
    | cons c cs ih =>
      intro g
      rw [List.foldl_cons, ih, layoutAddEdges_nodes]
  rw [main cards (layoutBuildSt cards).graph, layoutBuildSt_graph_nodes]

theorem foldl_layoutAddCard_indices_inv (cs : List CardListItem)
    (st : LayoutBuildSt)
    (h : ∀ p ∈ st.node_indices, p.2 < st.graph.nodes.length ∧
      st.graph.nodes.getD p.2 "" = p.1) :
    ∀ p ∈ (cs.foldl layoutAddCard st).node_indices,
      p.2 < (cs.foldl layoutAddCard st).graph.nodes.length ∧
      (cs.foldl layoutAddCard st).graph.nodes.getD p.2 "" = p.1 := by
  induction cs generalizing st with
  | nil => exact h
  | cons c cs ih =>
    refine ih (layoutAddCard st c) ?_
    intro p hp
    rcases List.mem_cons.mp hp with hp | hp
    · subst hp
      refine ⟨by simp [layoutAddCard], ?_⟩
      show (st.graph.nodes ++ [c.id]).getD st.graph.nodes.length "" = c.id
      rw [List.getD_append_right _ _ _ _ le_rfl]
      simp
    · obtain ⟨h1, h2⟩ := h p hp
      refine ⟨?_, ?_⟩
      · simp only [layoutAddCard, List.length_append, List.length_cons]
        omega
      · show (st.graph.nodes ++ [c.id]).getD p.2 "" = p.1
        rw [List.getD_append _ _ _ _ h1]
        exact h2

/-- A successful `node_indices` lookup on the layout path returns an
in-range index whose node weight is the looked-up id. -/
theorem layout_indices_getD (cards : List CardListItem) (k : String)
    (i : Nat)
    (h : mapLookup (layoutBuildSt cards).node_indices k = some i) :
    i < cards.length ∧ (cards.map (·.id)).getD i "" = k := by
  have hmem := mapLookup_mem _ _ _ h
  have hinv := foldl_layoutAddCard_indices_inv cards ⟨⟨[], []⟩, [], [], []⟩
    (by intro p hp; cases hp) (k, i) hmem
  have hn : (cards.foldl layoutAddCard ⟨⟨[], []⟩, [], [], []⟩).graph.nodes =
      cards.map (·.id) := layoutBuildSt_graph_nodes cards
  rw [hn, List.length_map] at hinv
  exact hinv

theorem layoutEdgeStep_wf (indices : List (String × Nat))
    (tm : List (String × String)) (s : Nat) (g : UGraphM) (l : String)
    (n : Nat) (hidx : ∀ p ∈ indices, p.2 < n) (hs : s < n)
    (h : ∀ e ∈ g.edges, e.1 < n ∧ e.2 < n) :
    ∀ e ∈ (layoutEdgeStep indices tm s g l).edges, e.1 < n ∧ e.2 < n := by
  intro e he
  rcases layoutEdgeStep_mem indices tm s g l e he with he' | ⟨h1, _, tid, hL⟩
  · exact h e he'
  · refine ⟨by rw [h1]; exact hs, ?_⟩
    exact hidx (tid, e.2) (mapLookup_mem _ _ _ hL)

theorem foldl_layoutEdgeStep_wf (ls : List String)
    (indices : List (String × Nat)) (tm : List (String × String))
    (s n : Nat) (hidx : ∀ p ∈ indices, p.2 < n) (hs : s < n) :
    ∀ g : UGraphM, (∀ e ∈ g.edges, e.1 < n ∧ e.2 < n) →
    ∀ e ∈ (ls.foldl (layoutEdgeStep indices tm s) g).edges,
      e.1 < n ∧ e.2 < n := by
  induction ls with
  | nil => exact fun g h => h
  | cons l ls ih =>
    intro g h
    rw [List.foldl_cons]
    exact ih _ (layoutEdgeStep_wf indices tm s g l n hidx hs h)

theorem layoutAddEdges_wf (indices : List (String × Nat))
    (tm : List (String × String)) (g : UGraphM) (c : CardListItem)
    (n : Nat) (hidx : ∀ p ∈ indices, p.2 < n)
    (h : ∀ e ∈ g.edges, e.1 < n ∧ e.2 < n) :
    ∀ e ∈ (layoutAddEdges indices tm g c).edges, e.1 < n ∧ e.2 < n := by
  unfold layoutAddEdges
  cases hL : mapLookup indices c.id with
  | none => exact h
  | some s =>
    exact foldl_layoutEdgeStep_wf c.links indices tm s n hidx
      (hidx (c.id, s) (mapLookup_mem _ _ _ hL)) g h

/-- Every edge of the undirected layout graph joins in-range node
indices. -/
theorem layoutGraph_edges_wf (cards : List CardListItem) :
    ∀ e ∈ (layoutGraph cards).edges,
      e.1 < (layoutGraph cards).nodes.length ∧
      e.2 < (layoutGraph cards).nodes.length := by
  have hn : (layoutGraph cards).nodes.length = cards.length := by
    rw [layoutGraph_nodes, List.length_map]
  have hidx : ∀ p ∈ (layoutBuildSt cards).node_indices,
      p.2 < cards.length := by
    intro p hp
    have hinv := foldl_layoutAddCard_indices_inv cards ⟨⟨[], []⟩, [], [], []⟩
      (by intro q hq; cases hq) p hp
    have hn2 : (cards.foldl layoutAddCard
        ⟨⟨[], []⟩, [], [], []⟩).graph.nodes =
        cards.map (·.id) := layoutBuildSt_graph_nodes cards
    rw [hn2, List.length_map] at hinv
    exact hinv.1
  have main : ∀ (cs : List CardListItem) (g : UGraphM),
      (∀ e ∈ g.edges, e.1 < cards.length ∧ e.2 < cards.length) →
      ∀ e ∈ (cs.foldl (layoutAddEdges (layoutBuildSt cards).node_indices
        (layoutBuildSt cards).title_to_id) g).edges,
        e.1 < cards.length ∧ e.2 < cards.length := by
    intro cs
    induction cs with
    | nil => exact fun g h => h
    | cons c cs ih =>
      intro g hg
      rw [List.foldl_cons]
      exact ih _ (layoutAddEdges_wf _ _ g c cards.length hidx hg)
  intro e he
  rw [hn]
  refine main cards (layoutBuildSt cards).graph ?_ e ?_
  · intro e' he'
    rw [layoutBuildSt_graph_edges] at he'
    cases he'
  · unfold layoutGraph at he
    exact he

/-! ### The cluster-assignment association map -/

theorem foldl_mapInsert_lookup_skip (f : Nat → String)
    (L : List (Nat × Nat)) (k : Nat) :
    ∀ m : List (String × Nat), (∀ q ∈ L, f q.1 ≠ f k) →
    mapLookup (L.foldl (fun m p => mapInsert m (f p.1) p.2) m) (f k) =
      mapLookup m (f k) := by
  induction L with
  | nil => intro m _; rfl
  | cons q L ih =>
    intro m hq
    rw [List.foldl_cons,
      ih _ (fun r hr => hq r (List.mem_cons_of_mem _ hr)),
      mapLookup_insert_ne]
    exact (hq q (List.mem_cons_self _ _)).symm

/-- Looking up a visited node's id in the cluster-assignment map returns
that node's cluster label, provided the ids of distinct visited nodes are
distinct and visit keys are unduplicated. -/
theorem foldl_mapInsert_lookup (f : Nat → String) (L : List (Nat × Nat))
    (k c : Nat) :
    ∀ m : List (String × Nat),
    (∀ q ∈ L, f q.1 = f k → q.1 = k) →
    (L.map (·.1)).Nodup →
    (k, c) ∈ L →
    mapLookup (L.foldl (fun m p => mapInsert m (f p.1) p.2) m) (f k) =
      some c := by
  induction L with
  | nil => intro m _ _ hk; cases hk
  | cons q L ih =>
    intro m hinj hnd hk
    simp only [List.map_cons, List.nodup_cons] at hnd
    rcases List.mem_cons.mp hk with hk | hk
    · have hq1 : q.1 = k := by rw [← hk]
      have hne : ∀ r ∈ L, f r.1 ≠ f k := by
        intro r hr hfr
        have hr1 : r.1 = k := hinj r (List.mem_cons_of_mem _ hr) hfr
        refine hnd.1 ?_
        rw [hq1, ← hr1]
        exact List.mem_map_of_mem _ hr
      rw [List.foldl_cons,
        foldl_mapInsert_lookup_skip f L k (mapInsert m (f q.1) q.2) hne,
        ← hk]
      exact mapLookup_insert m (f k) c
    · rw [List.foldl_cons]
      exact ih _ (fun r hr => hinj r (List.mem_cons_of_mem _ hr)) hnd.2 hk

/-- The component sweep visits every node exactly once, stays in range,
and gives two nodes the same cluster label exactly when they are connected
in the undirected graph. -/
theorem dfsSweep_spec (g : UGraphM)
    (hWF : ∀ e ∈ g.edges, e.1 < g.nodes.length ∧
      e.2 < g.nodes.length) :
    ((dfsSweep g).1.map (·.1)).Nodup ∧
    (∀ p ∈ (dfsSweep g).1, p.1 < g.nodes.length) ∧
    (∀ v, v < g.nodes.length → v ∈ (dfsSweep g).1.map (·.1)) ∧
    (∀ p ∈ (dfsSweep g).1, ∀ q ∈ (dfsSweep g).1,
      (p.2 = q.2 ↔ reachU g p.1 q.1)) := by
  unfold dfsSweep
  obtain ⟨k1, k2, _, _, k5, _, k7⟩ := dfsSweep_fold_inv g hWF
    (List.range g.nodes.length) ([], 0)
    (fun v hv => List.mem_range.mp hv)
    (by simp) (by simp) (by simp) (by simp) (by simp)
  refine ⟨k1, k2, ?_, k5⟩
  intro v hv
  exact k7 v (List.mem_range.mpr hv)

/-- Unfolding of the per-node payload list produced by `compute_layout`. -/
theorem compute_layout_nodes (cards : List CardListItem)
    (pos : String → ℚ × ℚ) :
    (compute_layout cards pos).nodes =
      (mapEntries (layoutBuildSt cards).node_states).map (fun p =>
        let neighbors :=
          match mapLookup (layoutBuildSt cards).node_indices p.1 with
          | some idx => (neighborsU (layoutGraph cards) idx).map
              (fun j => (layoutGraph cards).nodes.getD j "")
          | none => []
        GraphNode.mk p.1 p.2.1 p.2.2 (pos p.1).1 (pos p.1).2 neighbors
          neighbors.length
          ((mapLookup (compute_pagerank_for_cards cards
            (layoutBuildSt cards).title_to_id) p.1).getD 0)
          ((mapLookup ((dfsSweep (layoutGraph cards)).1.foldl
            (fun m r => mapInsert m
              ((layoutGraph cards).nodes.getD r.1 "") r.2) []) p.1).getD
            0)) :=
  rfl

/-- C9 (amended): for every card list with distinct ids, `compute_layout`
merges into each per-node payload the 2D coordinates, the PageRank
importance score of `compute_pagerank_for_cards`, and a `cluster_id`
determined by the *undirected connected components* of the resolved layout
graph (two nodes get the same `cluster_id` exactly when they are joined by
an undirected path) — not by strongly-connected components as the original
claim states. -/
theorem C9_layout_cluster_merge (cards : List CardListItem)
    (pos : String → ℚ × ℚ)
    (hnd : (cards.map (·.id)).Nodup) :
    (∀ nd ∈ (compute_layout cards pos).nodes,
      nd.x = (pos nd.id).1 ∧ nd.y = (pos nd.id).2 ∧
      nd.importance = (mapLookup (compute_pagerank_for_cards cards
        (layoutBuildSt cards).title_to_id) nd.id).getD 0 ∧
      nd.link_count = nd.neighbors.length) ∧
    (∀ nd1 ∈ (compute_layout cards pos).nodes,
      ∀ nd2 ∈ (compute_layout cards pos).nodes, ∀ i j : Nat,
      mapLookup (layoutBuildSt cards).node_indices nd1.id = some i →
      mapLookup (layoutBuildSt cards).node_indices nd2.id = some j →
      (nd1.cluster_id = nd2.cluster_id ↔
        reachU (layoutGraph cards) i j)) := by
  have hgn : (layoutGraph cards).nodes = cards.map (·.id) :=
    layoutGraph_nodes cards
  have hlen : (layoutGraph cards).nodes.length = cards.length := by
    rw [hgn, List.length_map]
  obtain ⟨k1, k2, k3, k4⟩ := dfsSweep_spec (layoutGraph cards)
    (layoutGraph_edges_wf cards)
  have hndn : (layoutGraph cards).nodes.Nodup := by
    rw [hgn]
    exact hnd
  have hcl : ∀ nd ∈ (compute_layout cards pos).nodes, ∀ i : Nat,
      mapLookup (layoutBuildSt cards).node_indices nd.id = some i →
      ∃ c : Nat, (i, c) ∈ (dfsSweep (layoutGraph cards)).1 ∧
        nd.cluster_id = c := by
    intro nd hmem i hi
    rw [compute_layout_nodes, List.mem_map] at hmem
    obtain ⟨p, hp, hpnd⟩ := hmem
    subst hpnd
    obtain ⟨hi1, hi2⟩ := layout_indices_getD cards _ i hi
    have hi1' : i < (layoutGraph cards).nodes.length := by
      rw [hlen]
      exact hi1
    have hcov := k3 i hi1'
    rw [List.mem_map] at hcov
    obtain ⟨q, hq, hq1⟩ := hcov
    have hqeq : (i, q.2) = q := Prod.ext hq1.symm rfl
    have hmemL : (i, q.2) ∈ (dfsSweep (layoutGraph cards)).1 := by
      rw [hqeq]
      exact hq
    refine ⟨q.2, hmemL, ?_⟩
    have hinj : ∀ r ∈ (dfsSweep (layoutGraph cards)).1,
        (fun v => (layoutGraph cards).nodes.getD v "") r.1 =
        (fun v => (layoutGraph cards).nodes.getD v "") i → r.1 = i := by
      intro r hr hfr
      exact nodup_getD_inj (layoutGraph cards).nodes hndn r.1 i
        (k2 r hr) hi1' hfr
    have hlook := foldl_mapInsert_lookup
      (fun v => (layoutGraph cards).nodes.getD v "")
      (dfsSweep (layoutGraph cards)).1 i q.2 [] hinj k1 hmemL
    have hkey : (layoutGraph cards).nodes.getD i "" = p.1 := by
      rw [hgn]
      exact hi2
    have hlook' : mapLookup ((dfsSweep (layoutGraph cards)).1.foldl
        (fun m r => mapInsert m ((layoutGraph cards).nodes.getD r.1 "") r.2)
        []) p.1 = some q.2 := by
      rw [← hkey]
      exact hlook
    show (mapLookup ((dfsSweep (layoutGraph cards)).1.foldl
        (fun m r => mapInsert m ((layoutGraph cards).nodes.getD r.1 "") r.2)
        []) p.1).getD 0 = q.2
    rw [hlook']
    rfl
  constructor
  · intro nd hmem
    rw [compute_layout_nodes, List.mem_map] at hmem
    obtain ⟨p, hp, hpnd⟩ := hmem
    subst hpnd
    exact ⟨rfl, rfl, rfl, rfl⟩
  · intro nd1 h1 nd2 h2 i j hi hj
    obtain ⟨ci, hci, hceq1⟩ := hcl nd1 h1 i hi
    obtain ⟨cj, hcj, hceq2⟩ := hcl nd2 h2 j hj
    rw [hceq1, hceq2]
    exact k4 (i, ci) hci (j, cj) hcj

/-- C9 counterexample to the original claim: for the one-directional pair
`a → b`, `compute_layout` assigns both nodes the same `cluster_id` `0`,
yet the strongly-connected components of the resolved directed graph are
the two singletons `{a}` and `{b}` — the nodes are not mutually reachable.
So `cluster_id` is not derived from SCC clustering. -/
theorem C9_counterexample :
    (compute_layout oneWayCards
      (fun _ => ((0 : ℚ), (0 : ℚ)))).nodes.map
      (fun nd => (nd.id, nd.cluster_id)) = [("b", 0), ("a", 0)] ∧
    sccList (build_from_cards oneWayCards).directed_graph = [[0], [1]] ∧
    mutualReach (build_from_cards oneWayCards).directed_graph 0 1 =
      false := by
  refine ⟨?_, by decide, by decide⟩
  decide

/-- C9 witness: the amended layout-merge theorem instantiated at the
one-directional pair with constant coordinates. -/
theorem C9_witness :
    (∀ nd ∈ (compute_layout oneWayCards
        (fun _ => ((0 : ℚ), (0 : ℚ)))).nodes,
      nd.x = ((fun _ => ((0 : ℚ), (0 : ℚ))) nd.id).1 ∧
      nd.y = ((fun _ => ((0 : ℚ), (0 : ℚ))) nd.id).2 ∧
      nd.importance = (mapLookup (compute_pagerank_for_cards oneWayCards
        (layoutBuildSt oneWayCards).title_to_id) nd.id).getD 0 ∧
      nd.link_count = nd.neighbors.length) ∧
    (∀ nd1 ∈ (compute_layout oneWayCards
        (fun _ => ((0 : ℚ), (0 : ℚ)))).nodes,
      ∀ nd2 ∈ (compute_layout oneWayCards
        (fun _ => ((0 : ℚ), (0 : ℚ)))).nodes, ∀ i j : Nat,
      mapLookup (layoutBuildSt oneWayCards).node_indices nd1.id = some i →
      mapLookup (layoutBuildSt oneWayCards).node_indices nd2.id = some j →
      (nd1.cluster_id = nd2.cluster_id ↔
        reachU (layoutGraph oneWayCards) i j)) :=
  C9_layout_cluster_merge oneWayCards (fun _ => ((0 : ℚ), (0 : ℚ)))
    (by decide)
